import Mathlib

/-! mvThreadPool: a work-stealing thread pool.

A shallow embedding of `src/mvThreadPool.h`.

* Objects that the C++ code reaches through pointers (the work-stealing queues) live in a
  heap, a total map from addresses to queue contents; a pool records the addresses of its
  queues, exactly as `m_queues` records owning pointers and `m_local_work_queue` a raw one.
* Every queue operation runs under the queue's mutex, so it is one atomic transition of
  the queue's contents; a concurrent execution is a sequence of such transitions.
* The two `static thread_local` members are a per-thread record that is passed explicitly
  to the member functions that read them.
* A call of `submit` and a call of `run_pending_task` are each taken as one step on the
  state. Submitted callables are pure: running one yields a value or a failure and has
  no other effect.
* `unsigned` is 32 bits wide; the one `unsigned` sum of the source is reduced modulo
  `2^32`.
-/

namespace Marvel

/-! ## mvFunctionWrapper -/

/-- The type-erased task of the source. `m_impl` is the owning pointer to the stored
callable; `none` is the null pointer held by a default-constructed wrapper. The type `α`
stands for the stored callables (`impl_type<F>` for the various `F`). -/
structure mvFunctionWrapper (α : Type) where
  m_impl : Option α
deriving DecidableEq, Repr

namespace mvFunctionWrapper

variable {α : Type}

/-- The defaulted default constructor: `m_impl` is null. -/
def empty : mvFunctionWrapper α :=
  ⟨none⟩

/-- The converting constructor `mvFunctionWrapper(F&& f)`: `m_impl` owns a fresh
`impl_type<F>` holding `f`, so it is never null. -/
def ofCallable (f : α) : mvFunctionWrapper α :=
  ⟨some f⟩

end mvFunctionWrapper

/-! ## mvWorkStealingQueue -/

/-- The queue of the source: `m_queue` is the `std::deque`, the head of the list being
the deque's front. The mutex is not data: it makes each member function atomic. -/
structure mvWorkStealingQueue (α : Type) where
  m_queue : List (mvFunctionWrapper α)
deriving DecidableEq, Repr

/-- What `try_pop` and `try_steal` leave behind: the returned flag, the queue after the
call, and the caller's out-parameter `res` after the call. -/
structure TryResult (α : Type) where
  ret : Bool
  queue : mvWorkStealingQueue α
  res : mvFunctionWrapper α
deriving DecidableEq, Repr

namespace mvWorkStealingQueue

variable {α : Type}

/-- The constructor: an empty deque. -/
def new : mvWorkStealingQueue α :=
  ⟨[]⟩

/-- The member `push`: `m_queue.push_front(std::move(data))`. -/
def push (q : mvWorkStealingQueue α) (data : mvFunctionWrapper α) : mvWorkStealingQueue α :=
  ⟨data :: q.m_queue⟩

/-- The member `empty`: `m_queue.empty()`. -/
def empty (q : mvWorkStealingQueue α) : Bool :=
  q.m_queue.isEmpty

/-- The member `try_pop`: on an empty deque return false and touch nothing; otherwise
move the front element into `res`, `pop_front`, return true. -/
def try_pop (q : mvWorkStealingQueue α) (res : mvFunctionWrapper α) : TryResult α :=
  if h : q.m_queue.isEmpty = true then
    ⟨false, q, res⟩
  else
    ⟨true, ⟨q.m_queue.tail⟩, q.m_queue.head (by intro hn; simp [hn] at h)⟩

/-- The member `try_steal`: on an empty deque return false and touch nothing; otherwise
move the back element into `res`, `pop_back`, return true. -/
def try_steal (q : mvWorkStealingQueue α) (res : mvFunctionWrapper α) : TryResult α :=
  if h : q.m_queue.isEmpty = true then
    ⟨false, q, res⟩
  else
    ⟨true, ⟨q.m_queue.dropLast⟩, q.m_queue.getLast (by intro hn; simp [hn] at h)⟩

/-! ### Drivers: sequences of calls on one queue -/

/-- Push the tasks of `ts` one after the other, `ts.head` first. -/
def push_all (q : mvWorkStealingQueue α) (ts : List (mvFunctionWrapper α)) :
    mvWorkStealingQueue α :=
  ts.foldl push q

/-- The observable part of one `try_pop`/`try_steal` call: the flag and the value of the
out-parameter after the call. -/
abbrev Observed (α : Type) := Bool × mvFunctionWrapper α

/-- Run `n` successive `try_pop` calls, all on the same out-parameter variable, and
record what each call returned. -/
def pop_times : Nat → mvWorkStealingQueue α → mvFunctionWrapper α →
    List (Observed α) × mvWorkStealingQueue α
  | 0, q, _ => ([], q)
  | n + 1, q, res =>
    let r := q.try_pop res
    let rest := pop_times n r.queue r.res
    ((r.ret, r.res) :: rest.1, rest.2)

/-- Run `n` successive `try_steal` calls, all on the same out-parameter variable, and
record what each call returned. -/
def steal_times : Nat → mvWorkStealingQueue α → mvFunctionWrapper α →
    List (Observed α) × mvWorkStealingQueue α
  | 0, q, _ => ([], q)
  | n + 1, q, res =>
    let r := q.try_steal res
    let rest := steal_times n r.queue r.res
    ((r.ret, r.res) :: rest.1, rest.2)

/-- One call on a queue, as issued by some thread. -/
inductive Op (α : Type) where
  | push (data : mvFunctionWrapper α)
  | try_pop
  | try_steal
deriving DecidableEq, Repr

/-- The bookkeeping of a run of calls on one queue: the queue itself, the tasks handed
to `push` so far, and the tasks handed out by successful `try_pop`/`try_steal` calls. -/
structure Run (α : Type) where
  queue : mvWorkStealingQueue α
  pushed : List (mvFunctionWrapper α)
  taken : List (mvFunctionWrapper α)
deriving DecidableEq, Repr

/-- Apply one call. Each call starts from a default-constructed out-parameter, as
`run_pending_task` does. -/
def Run.step (r : Run α) : Op α → Run α
  | .push data => { r with queue := r.queue.push data, pushed := data :: r.pushed }
  | .try_pop =>
    let t := r.queue.try_pop mvFunctionWrapper.empty
    { r with queue := t.queue, taken := if t.ret then t.res :: r.taken else r.taken }
  | .try_steal =>
    let t := r.queue.try_steal mvFunctionWrapper.empty
    { r with queue := t.queue, taken := if t.ret then t.res :: r.taken else r.taken }

/-- Apply a finite interleaving of calls to an initially empty queue. -/
def Run.exec (ops : List (Op α)) : Run α :=
  ops.foldl Run.step ⟨new, [], []⟩

end mvWorkStealingQueue

/-! ## The standard-library pieces used by `submit` -/

/-- The result of running a nullary callable: the value it returns, or the failure it
raises. -/
abbrev Outcome (ρ ε : Type) := Except ε ρ

/-- The shared states of all promise/future pairs, by address: `none` while the state is
not ready, `some o` once the outcome `o` has been stored. -/
abbrev SharedStates (ρ ε : Type) := Nat → Option (Outcome ρ ε)

/-- Modelled from the spec: `std::packaged_task<result_type()>` is standard-library code,
absent from the sources. It is the promise half of the promise/future pair created per
submission, together with the callable: the stored callable `f` and the address of the
shared state in which its outcome is to be stored. -/
structure packaged_task (ρ ε : Type) where
  f : Unit → Outcome ρ ε
  state : Nat

/-- Modelled from the spec: `std::future<result_type>` is standard-library code, absent
from the sources. It is the future half of the pair: the address of the shared state it
reads. -/
structure future where
  state : Nat
deriving DecidableEq, Repr

/-- The ways in which `task()` can fail to run the stored callable: the null `m_impl` of
an empty wrapper is dereferenced, or the packaged task finds its shared state already
satisfied and throws `std::future_error`. -/
inductive Fault where
  | null_call
  | promise_already_satisfied
deriving DecidableEq, Repr

namespace packaged_task

variable {ρ ε : Type}

/-- Modelled from the spec: the member `get_future` of `std::packaged_task`, absent from
the sources: the future paired with the task, on the task's shared state. -/
def get_future (t : packaged_task ρ ε) : future :=
  ⟨t.state⟩

/-- Modelled from the spec: the call operator of `std::packaged_task`, absent from the
sources. It runs the stored callable and fulfils the promise with its value or with its
captured failure; a promise is fulfilled only once, so if the shared state already holds
an outcome the call throws `promise_already_satisfied` and leaves it as it is. -/
def invoke (t : packaged_task ρ ε) (shared : SharedStates ρ ε) :
    Except Fault (SharedStates ρ ε) :=
  match shared t.state with
  | some _ => .error .promise_already_satisfied
  | none => .ok (Function.update shared t.state (some (t.f ())))

end packaged_task

/-- The call operator of `mvFunctionWrapper`, `m_impl->call()`, for the callables the
pool stores (packaged tasks): dereferencing a null `m_impl` is a fault, otherwise
`impl_type::call` runs the stored packaged task. -/
def mvFunctionWrapper.invoke {ρ ε : Type} (w : mvFunctionWrapper (packaged_task ρ ε))
    (shared : SharedStates ρ ε) : Except Fault (SharedStates ρ ε) :=
  match w.m_impl with
  | none => .error .null_call
  | some t => t.invoke shared

/-- Modelled from the spec: the member `get` of `std::future`, absent from the sources:
the stored value or failure once the producer has run, and `none` while the shared state
is not ready (where the real call blocks). -/
def future.get {ρ ε : Type} (fut : future) (shared : SharedStates ρ ε) :
    Option (Outcome ρ ε) :=
  shared fut.state

/-! ## mvThreadPool -/

/-- Addresses of queue objects. -/
abbrev Addr := Nat

/-- The queue objects in memory, by address. -/
abbrev Heap (α : Type) := Addr → mvWorkStealingQueue α

/-- The number of values of the C++ type `unsigned` (32 bits); arithmetic on `unsigned`
is taken modulo this number. -/
def UINT_MOD : Nat :=
  2 ^ 32

/-- The pool object. `m_pool_work_queue` is the address of the overflow queue (a member
of the pool object), `m_queues` the addresses owned by the vector of `unique_ptr`s, in
vector order. The thread handles `m_threads` and `m_joiner` carry no data that the
modelled functions read. -/
structure mvThreadPool where
  m_done : Bool
  m_pool_work_queue : Addr
  m_queues : List Addr
deriving DecidableEq, Repr

/-- The two `static thread_local` members, one copy per thread and shared by all pools:
the raw pointer `m_local_work_queue` (`none` is the null pointer) and `m_index`. -/
structure ThreadLocal where
  m_local_work_queue : Option Addr
  m_index : Nat
deriving DecidableEq, Repr

/-- The thread-local members of a thread that never ran `worker_thread`: both are
zero-initialised. -/
def ThreadLocal.fresh : ThreadLocal :=
  ⟨none, 0⟩

/-- What one of the three `pop_task_from_*` members leaves behind: the returned flag, the
heap after the call, and the caller's variable `task` after the call. -/
structure PoolPop (α : Type) where
  ret : Bool
  heap : Heap α
  task : mvFunctionWrapper α

/-- Everything the pool's member functions read and write outside the pool object: the
queue objects, the shared states of the futures handed out, and the address at which the
next shared state is allocated. -/
structure State (ρ ε : Type) where
  heap : Heap (packaged_task ρ ε)
  shared : SharedStates ρ ε
  next : Nat

/-- What one call of `run_pending_task` did after choosing: it invoked `task()` on the
task it obtained, or it called `std::this_thread::yield()`. -/
inductive Ran (α : Type) where
  | task (t : mvFunctionWrapper α)
  | yield
deriving DecidableEq, Repr

/-- The result of one call of `run_pending_task`: the state afterwards, what was run, and
the fault raised by `task()` if there was one. -/
structure Iteration (ρ ε : Type) where
  state : State ρ ε
  ran : Ran (packaged_task ρ ε)
  fault : Option Fault

namespace mvThreadPool

variable {α ρ ε : Type}

/-- The two assignments at the start of `worker_thread(index)`: `m_index = index` and
`m_local_work_queue = m_queues[m_index].get()`. An `index` outside the vector is
undefined behaviour (`none`); the constructor only passes indices below the size. The
loop `while (!m_done) run_pending_task();` that follows repeats `run_pending_task` with
these thread-local values. -/
def worker_thread (self : mvThreadPool) (index : Nat) : Option ThreadLocal :=
  match self.m_queues[index]? with
  | none => none
  | some q => some ⟨some q, index⟩

/-- The member `pop_task_from_local_queue`:
`m_local_work_queue && m_local_work_queue->try_pop(task)`. -/
def pop_task_from_local_queue (tl : ThreadLocal) (h : Heap α)
    (task : mvFunctionWrapper α) : PoolPop α :=
  match tl.m_local_work_queue with
  | none => ⟨false, h, task⟩
  | some q =>
    let r := (h q).try_pop task
    ⟨r.ret, Function.update h q r.queue, r.res⟩

/-- The member `pop_task_from_pool_queue`: `m_pool_work_queue.try_pop(task)`. -/
def pop_task_from_pool_queue (self : mvThreadPool) (h : Heap α)
    (task : mvFunctionWrapper α) : PoolPop α :=
  let r := (h self.m_pool_work_queue).try_pop task
  ⟨r.ret, Function.update h self.m_pool_work_queue r.queue, r.res⟩

/-- The loop of `pop_task_from_other_thread_queue`, entered with the counter at `i` and
`n` iterations left before `i < m_queues.size()` fails. The sum `m_index + i + 1` is
computed in `unsigned`, the remainder by the size in `size_t`. The size of the vector
was counted by an `unsigned` in the constructor, so the counter itself never wraps. An
index outside the vector cannot arise (the remainder is below the size); that branch
returns false. -/
def steal_loop (self : mvThreadPool) (tl : ThreadLocal) :
    Nat → Nat → Heap α → mvFunctionWrapper α → PoolPop α
  | 0, _, h, task => ⟨false, h, task⟩
  | n + 1, i, h, task =>
    let index := ((tl.m_index + i + 1) % UINT_MOD) % self.m_queues.length
    match self.m_queues[index]? with
    | none => ⟨false, h, task⟩
    | some q =>
      let r := (h q).try_steal task
      if r.ret then
        ⟨true, Function.update h q r.queue, r.res⟩
      else
        steal_loop self tl n (i + 1) (Function.update h q r.queue) r.res

/-- The member `pop_task_from_other_thread_queue`: the loop from `i = 0`, with
`m_queues.size()` iterations to go. -/
def pop_task_from_other_thread_queue (self : mvThreadPool) (tl : ThreadLocal) (h : Heap α)
    (task : mvFunctionWrapper α) : PoolPop α :=
  steal_loop self tl self.m_queues.length 0 h task

/-- The statement `task();` of `run_pending_task` on the task just obtained, followed by
the return. -/
def run_task (s : State ρ ε) (h : Heap (packaged_task ρ ε))
    (task : mvFunctionWrapper (packaged_task ρ ε)) : Iteration ρ ε :=
  match task.invoke s.shared with
  | .ok shared => ⟨{ s with heap := h, shared := shared }, .task task, none⟩
  | .error e => ⟨{ s with heap := h }, .task task, some e⟩

/-- The member `run_pending_task`: a default-constructed `task`, then the three attempts
joined by the short-circuit `||`; `task()` if one of them returned true, `yield`
otherwise. -/
def run_pending_task (self : mvThreadPool) (tl : ThreadLocal) (s : State ρ ε) :
    Iteration ρ ε :=
  let task : mvFunctionWrapper (packaged_task ρ ε) := mvFunctionWrapper.empty
  let r1 := pop_task_from_local_queue tl s.heap task
  if r1.ret then
    run_task s r1.heap r1.task
  else
    let r2 := self.pop_task_from_pool_queue r1.heap r1.task
    if r2.ret then
      run_task s r2.heap r2.task
    else
      let r3 := self.pop_task_from_other_thread_queue tl r2.heap r2.task
      if r3.ret then
        run_task s r3.heap r3.task
      else
        ⟨{ s with heap := r3.heap }, .yield, none⟩

/-- The member `submit`: build the packaged task around `f` (which allocates its shared
state), take its future, push the task (converted to an `mvFunctionWrapper`) on the
queue `m_local_work_queue` points to if that pointer is not null and on
`m_pool_work_queue` otherwise, and return the future. -/
def submit (self : mvThreadPool) (tl : ThreadLocal) (s : State ρ ε)
    (f : Unit → Outcome ρ ε) : State ρ ε × future :=
  let task : packaged_task ρ ε := ⟨f, s.next⟩
  let res : future := task.get_future
  let s1 : State ρ ε := { s with next := s.next + 1 }
  match tl.m_local_work_queue with
  | some q =>
    ({ s1 with heap := Function.update s1.heap q ((s1.heap q).push (.ofCallable task)) }, res)
  | none =>
    let q := self.m_pool_work_queue
    ({ s1 with heap := Function.update s1.heap q ((s1.heap q).push (.ofCallable task)) }, res)

/-! ### The stealing step in the words of the specification -/

/-- The round-robin order of the specification for worker `s` of `N`: the indices
`(s + 1) mod N, (s + 2) mod N, ..`, one for each of `N` probes. -/
def probe_order (s N : Nat) : List Nat :=
  (List.range N).map (fun j => (s + 1 + j) % N)

/-- The queues of the pool in the round-robin order of worker `s`. -/
def probed_queues (self : mvThreadPool) (s : Nat) : List Addr :=
  (probe_order s self.m_queues.length).filterMap (fun k => self.m_queues[k]?)

/-- Stealing in the words of the specification: take the back task of the first
non-empty queue of `addrs`, leaving everything else alone; report false, with nothing
changed, when all of them are empty. -/
def steal_first_nonempty (addrs : List Addr) (h : Heap α) (task : mvFunctionWrapper α) :
    PoolPop α :=
  match addrs.find? (fun a => !(h a).empty) with
  | none => ⟨false, h, task⟩
  | some a =>
    ⟨true, Function.update h a ⟨(h a).m_queue.dropLast⟩, (h a).m_queue.getLast?.getD task⟩

/-! ### Predicates and runs used in the statements -/

/-- The heap `h2` is `h1` with the one task `w` removed from the queue at `a`. -/
def Took (h1 h2 : Heap α) (w : mvFunctionWrapper α) (a : Addr) : Prop :=
  ∃ pre post, (h1 a).m_queue = pre ++ w :: post ∧ h2 = Function.update h1 a ⟨pre ++ post⟩

/-- The iteration `it`, started in state `s`, executed the task `t`: it invoked `task()`
on `t`, allocated nothing, and its effect is that of the call operator of `t` on the
shared states of `s`: where that call succeeds the shared states are the ones it
produced (the outcome of the stored callable is stored) and there is no fault; where it
fails the shared states are untouched and the fault is the one it raised. -/
def Executed (s : State ρ ε) (t : mvFunctionWrapper (packaged_task ρ ε))
    (it : Iteration ρ ε) : Prop :=
  it.ran = .task t ∧ it.state.next = s.next ∧
  (∀ shared, t.invoke s.shared = .ok shared → it.state.shared = shared ∧ it.fault = none) ∧
  (∀ e, t.invoke s.shared = .error e → it.state.shared = s.shared ∧ it.fault = some e)

/-- Every task held in the pool's queues (the overflow queue and the per-worker queues)
is non-empty, that is, holds a callable. -/
def NonEmptyTasks (self : mvThreadPool) (h : Heap α) : Prop :=
  (∀ t ∈ (h self.m_pool_work_queue).m_queue, t.m_impl ≠ none) ∧
  ∀ a ∈ self.m_queues, ∀ t ∈ (h a).m_queue, t.m_impl ≠ none

end mvThreadPool

/-- The shared states that the packaged tasks held in a queue will write to. -/
def mvWorkStealingQueue.states {ρ ε : Type} (q : mvWorkStealingQueue (packaged_task ρ ε)) :
    List Nat :=
  q.m_queue.filterMap (fun w => w.m_impl.map (fun t => t.state))

/-- One call made by some thread of the process: `submit` on a pool, or one iteration of
a worker loop of a pool. The thread is present through its thread-local members.
Construction and teardown of a pool are not among the calls: they run no task. -/
inductive Call (ρ ε : Type) where
  | submit (pool : mvThreadPool) (tl : ThreadLocal) (f : Unit → Outcome ρ ε)
  | run_pending_task (pool : mvThreadPool) (tl : ThreadLocal)

namespace State

variable {ρ ε : Type}

/-- The state after one call. -/
def step (s : State ρ ε) : Call ρ ε → State ρ ε
  | .submit pool tl f => (pool.submit tl s f).1
  | .run_pending_task pool tl => (pool.run_pending_task tl s).state

/-- The state after a sequence of calls, in the order in which they take effect. -/
def exec (s : State ρ ε) (cs : List (Call ρ ε)) : State ρ ε :=
  cs.foldl step s

/-- The state of a process in which no task has been submitted yet: all queues empty,
no shared state allocated. -/
def initial : State ρ ε :=
  ⟨fun _ => mvWorkStealingQueue.new, fun _ => none, 0⟩

/-- The consistency of queues and shared states that every call maintains: queued tasks
hold a callable; the shared state of a queued packaged task has been allocated and is
not ready; no two queued packaged tasks have the same shared state; and the shared
states not yet allocated are not ready. -/
structure Sound (s : State ρ ε) : Prop where
  nonempty : ∀ a, ∀ w ∈ (s.heap a).m_queue, w.m_impl ≠ none
  pending : ∀ a, ∀ k ∈ (s.heap a).states, k < s.next ∧ s.shared k = none
  nodup : ∀ a, (s.heap a).states.Nodup
  disjoint : ∀ a b, a ≠ b → List.Disjoint (s.heap a).states (s.heap b).states
  fresh : ∀ k, s.next ≤ k → s.shared k = none

/-- The state is sound, the shared state `k` has been allocated, every queued packaged
task that writes to `k` runs `f`, and `k` is not ready or holds the outcome of `f`. -/
structure Tracked (k : Nat) (f : Unit → Outcome ρ ε) (s : State ρ ε) : Prop where
  sound : Sound s
  allocated : k < s.next
  callable : ∀ a, ∀ w ∈ (s.heap a).m_queue, ∀ t, w.m_impl = some t → t.state = k → t.f = f
  outcome : s.shared k = none ∨ s.shared k = some (f ())

end State

/-! ### Concrete pools and states -/

namespace Example

/-- A pool of three workers: overflow queue at address 0, per-worker queues at the
distinct addresses 1, 2, 3. -/
def pool : mvThreadPool :=
  ⟨false, 0, [1, 2, 3]⟩

/-- A second pool in the same process, sharing no queue with the first: overflow queue
at 10, per-worker queues at 11, 12. -/
def other_pool : mvThreadPool :=
  ⟨false, 10, [11, 12]⟩

/-- A callable that returns 50. -/
def get_age : Unit → Outcome Nat String :=
  fun _ => .ok 50

/-- A callable that raises a failure. -/
def failing : Unit → Outcome Nat String :=
  fun _ => .error "failure"

/-- A heap of tasks that are plain numbers: queue 2 holds 7 at the front and 8 at the
back, every other queue is empty. -/
def heap : Heap Nat :=
  fun a => if a = 2 then ⟨[.ofCallable 7, .ofCallable 8]⟩ else ⟨[]⟩

/-- A state with one packaged task in the overflow queue and one in the queue of
worker 2 (at address 3); both shared states are allocated and not ready. -/
def busy : State Nat String :=
  ⟨fun a => if a = 0 then ⟨[.ofCallable ⟨get_age, 0⟩]⟩
    else if a = 3 then ⟨[.ofCallable ⟨failing, 1⟩]⟩ else ⟨[]⟩,
   fun _ => none, 2⟩

end Example

/-! ## Properties of mvWorkStealingQueue -/

namespace mvWorkStealingQueue

variable {α : Type}

theorem try_pop_cons (t : mvFunctionWrapper α) (ts : List (mvFunctionWrapper α))
    (res : mvFunctionWrapper α) :
    (⟨t :: ts⟩ : mvWorkStealingQueue α).try_pop res = ⟨true, ⟨ts⟩, t⟩ := by
  simp [try_pop]

theorem try_steal_concat (ts : List (mvFunctionWrapper α)) (t res : mvFunctionWrapper α) :
    (⟨ts ++ [t]⟩ : mvWorkStealingQueue α).try_steal res = ⟨true, ⟨ts⟩, t⟩ := by
  simp [try_steal]

theorem empty_iff (q : mvWorkStealingQueue α) : q.empty = true ↔ q.m_queue = [] := by
  simp [empty]

theorem empty_eq_false_iff (q : mvWorkStealingQueue α) :
    q.empty = false ↔ q.m_queue ≠ [] := by
  cases q with
  | mk l => cases l <;> simp [empty]

/-- A non-empty list is its `dropLast` followed by its last element. -/
theorem exists_concat_of_ne_nil {β : Type} (l : List β) (h : l ≠ []) :
    ∃ front back, l = front ++ [back] :=
  ⟨l.dropLast, l.getLast h, (List.dropLast_append_getLast h).symm⟩

theorem push_all_m_queue (q : mvWorkStealingQueue α) (ts : List (mvFunctionWrapper α)) :
    (q.push_all ts).m_queue = ts.reverse ++ q.m_queue := by
  induction ts generalizing q with
  | nil => simp [push_all]
  | cons t ts ih =>
    have h := ih (q.push t)
    simp only [push_all, List.foldl_cons] at h ⊢
    rw [h]
    simp [push]

theorem pop_times_append (xs rest : List (mvFunctionWrapper α)) (res : mvFunctionWrapper α) :
    pop_times xs.length (⟨xs ++ rest⟩ : mvWorkStealingQueue α) res
      = (xs.map (fun x => (true, x)), ⟨rest⟩) := by
  induction xs generalizing res with
  | nil => simp [pop_times]
  | cons x xs ih =>
    simp only [List.length_cons, pop_times, List.cons_append, try_pop_cons, List.map_cons]
    rw [ih]

theorem steal_times_append (xs rest : List (mvFunctionWrapper α)) (res : mvFunctionWrapper α) :
    steal_times xs.length (⟨rest ++ xs.reverse⟩ : mvWorkStealingQueue α) res
      = (xs.map (fun x => (true, x)), ⟨rest⟩) := by
  induction xs generalizing res with
  | nil => simp [steal_times]
  | cons x xs ih =>
    have hq : rest ++ (x :: xs).reverse = (rest ++ xs.reverse) ++ [x] := by simp
    simp only [List.length_cons, steal_times, hq, try_steal_concat, List.map_cons]
    rw [ih]

/-- C5: `try_pop` right after `push(q, t)` returns true, hands out exactly `t` and leaves
the queue equal to `q`; and after pushing `t1 .. tn` on an empty queue, `n` successive
`try_pop` calls all return true and hand out `tn, .., t1`, leaving the queue empty. -/
theorem owner_side_stack_order (q : mvWorkStealingQueue α) (t res : mvFunctionWrapper α)
    (ts : List (mvFunctionWrapper α)) :
    (q.push t).try_pop res = ⟨true, q, t⟩ ∧
    pop_times ts.length (push_all new ts) res
      = (ts.reverse.map (fun x => (true, x)), new) := by
  refine ⟨by simp [push, try_pop], ?_⟩
  have hq : push_all new ts = (⟨ts.reverse ++ []⟩ : mvWorkStealingQueue α) := by
    have h := push_all_m_queue (new : mvWorkStealingQueue α) ts
    cases hp : push_all new ts with
    | mk l => rw [hp] at h; simp only [new] at h; simp [h, new]
  rw [hq]
  have h := pop_times_append ts.reverse [] res
  simpa [new] using h

/-- C6: on a non-empty queue `try_steal` returns true and hands out the back element
(the end opposite to the one `push` and `try_pop` work on), the remaining tasks keeping
their order; and after pushing `t1 .. tn` on an empty queue, `n` successive `try_steal`
calls all return true and hand out `t1, .., tn`, leaving the queue empty. -/
theorem thief_side_order (q : mvWorkStealingQueue α) (res : mvFunctionWrapper α)
    (ts : List (mvFunctionWrapper α)) :
    (q.empty = false →
      (q.try_steal res).ret = true ∧
      q.m_queue = (q.try_steal res).queue.m_queue ++ [(q.try_steal res).res]) ∧
    (∀ t, (q.push t).m_queue.head? = some t ∧
      ((q.push t).try_pop res).res = t ∧
      (q.empty = false →
        ((q.push t).try_steal res).res = (q.try_steal res).res)) ∧
    steal_times ts.length (push_all new ts) res = (ts.map (fun x => (true, x)), new) := by
  refine ⟨?_, ?_, ?_⟩
  · intro hne
    obtain ⟨front, back, hfb⟩ :=
      exists_concat_of_ne_nil q.m_queue ((empty_eq_false_iff q).1 hne)
    cases q with
    | mk l =>
      simp only at hfb
      subst hfb
      simp [try_steal_concat]
  · intro t
    refine ⟨by simp [push], by simp [push, try_pop], ?_⟩
    intro hne
    obtain ⟨front, back, hfb⟩ :=
      exists_concat_of_ne_nil q.m_queue ((empty_eq_false_iff q).1 hne)
    cases q with
    | mk l =>
      simp only at hfb
      subst hfb
      have h1 : (push ⟨front ++ [back]⟩ t : mvWorkStealingQueue α)
          = ⟨(t :: front) ++ [back]⟩ := by simp [push]
      rw [h1, try_steal_concat, try_steal_concat]
  · have hq : push_all new ts = (⟨[] ++ ts.reverse⟩ : mvWorkStealingQueue α) := by
      have h := push_all_m_queue (new : mvWorkStealingQueue α) ts
      cases hp : push_all new ts with
      | mk l => rw [hp] at h; simp only [new] at h; simp [h]
    rw [hq]
    exact steal_times_append ts [] res

/-- C7: `try_pop` and `try_steal` return false exactly when `empty()` reports true; a
call that returns false leaves the queue as it was (empty) and the out-parameter
unmodified; a call that returns true shortens the queue by exactly one. -/
theorem try_false_iff_empty (q : mvWorkStealingQueue α) (res : mvFunctionWrapper α) :
    ((q.try_pop res).ret = false ↔ q.empty = true) ∧
    ((q.try_steal res).ret = false ↔ q.empty = true) ∧
    ((q.try_pop res).ret = false →
      (q.try_pop res).queue = q ∧ (q.try_pop res).queue.empty = true ∧
      (q.try_pop res).res = res) ∧
    ((q.try_steal res).ret = false →
      (q.try_steal res).queue = q ∧ (q.try_steal res).queue.empty = true ∧
      (q.try_steal res).res = res) ∧
    ((q.try_pop res).ret = true →
      (q.try_pop res).queue.m_queue.length + 1 = q.m_queue.length) ∧
    ((q.try_steal res).ret = true →
      (q.try_steal res).queue.m_queue.length + 1 = q.m_queue.length) := by
  cases q with
  | mk l =>
    cases l with
    | nil => simp [try_pop, try_steal, empty]
    | cons x xs => simp [try_pop, try_steal, empty]

/-- The tasks handed to `push` by a sequence of calls, latest first. -/
theorem Run.pushed_exec (ops : List (Op α)) :
    (Run.exec ops).pushed
      = (ops.filterMap (fun o => match o with
          | .push data => some data
          | _ => none)).reverse := by
  have key : ∀ (ops : List (Op α)) (r : Run α),
      (ops.foldl Run.step r).pushed
        = (ops.filterMap (fun o => match o with
            | .push data => some data
            | _ => none)).reverse ++ r.pushed := by
    intro ops
    induction ops with
    | nil => intro r; simp
    | cons o ops ih =>
      intro r
      rw [List.foldl_cons, ih]
      cases o <;> simp [Run.step]
  simpa [Run.exec] using key ops ⟨new, [], []⟩

/-- One call keeps the balance: what was taken plus what is queued is what was pushed. -/
theorem Run.step_balance (r : Run α) (o : Op α)
    (h : (r.taken : Multiset (mvFunctionWrapper α)) + (r.queue.m_queue : Multiset _)
      = (r.pushed : Multiset _)) :
    ((r.step o).taken : Multiset (mvFunctionWrapper α)) + ((r.step o).queue.m_queue : Multiset _)
      = ((r.step o).pushed : Multiset _) := by
  obtain ⟨⟨l⟩, pushed, taken⟩ := r
  simp only at h
  cases o with
  | push data =>
    simp only [Run.step, push]
    rw [← Multiset.cons_coe, ← Multiset.cons_coe, Multiset.add_cons, h]
  | try_pop =>
    cases l with
    | nil => simpa [Run.step, try_pop] using h
    | cons x xs =>
      simp only [Run.step, try_pop_cons, if_true]
      rw [← h, ← Multiset.cons_coe, ← Multiset.cons_coe, Multiset.cons_add, Multiset.add_cons]
  | try_steal =>
    rcases List.eq_nil_or_concat l with hl | ⟨front, back, hl⟩
    · subst hl
      simpa [Run.step, try_steal] using h
    · rw [List.concat_eq_append] at hl
      subst hl
      simp only [Run.step, try_steal_concat, if_true]
      rw [← h, ← Multiset.cons_coe, Multiset.cons_add]
      have : ((front ++ [back] : List _) : Multiset (mvFunctionWrapper α))
          = back ::ₘ (front : Multiset _) := by
        rw [Multiset.cons_coe]
        exact Multiset.coe_eq_coe.2 (List.perm_append_singleton back front)
      rw [this, Multiset.add_cons]

/-- C8: for every finite sequence of `push`, `try_pop` and `try_steal` calls applied to
an initially empty queue, the multiset of the tasks handed out by the successful
`try_pop`/`try_steal` calls together with the tasks still queued is the multiset of the
tasks pushed (those of the sequence's `push` calls); so when the queue ends empty, the
tasks handed out are, as a multiset, the tasks pushed. -/
theorem queue_conserves_tasks (ops : List (Op α)) :
    (((Run.exec ops).taken : Multiset (mvFunctionWrapper α))
        + ((Run.exec ops).queue.m_queue : Multiset _)
      = ((ops.filterMap (fun o => match o with
          | .push data => some data
          | _ => none) : List _) : Multiset _)) ∧
    ((Run.exec ops).queue.empty = true →
      ((Run.exec ops).taken : Multiset (mvFunctionWrapper α))
        = ((ops.filterMap (fun o => match o with
            | .push data => some data
            | _ => none) : List _) : Multiset _)) := by
  have bal : ∀ (ops : List (Op α)) (r : Run α),
      (r.taken : Multiset (mvFunctionWrapper α)) + (r.queue.m_queue : Multiset _)
        = (r.pushed : Multiset _) →
      ((ops.foldl Run.step r).taken : Multiset (mvFunctionWrapper α))
          + ((ops.foldl Run.step r).queue.m_queue : Multiset _)
        = ((ops.foldl Run.step r).pushed : Multiset _) := by
    intro ops
    induction ops with
    | nil => intro r h; simpa using h
    | cons o ops ih =>
      intro r h
      rw [List.foldl_cons]
      exact ih _ (Run.step_balance r o h)
  have h0 := bal ops ⟨new, [], []⟩ (by simp [new])
  have hp := Run.pushed_exec ops
  have hmain : ((Run.exec ops).taken : Multiset (mvFunctionWrapper α))
        + ((Run.exec ops).queue.m_queue : Multiset _)
      = ((ops.filterMap (fun o => match o with
          | .push data => some data
          | _ => none) : List _) : Multiset _) := by
    have h1 : ((Run.exec ops).taken : Multiset (mvFunctionWrapper α))
        + ((Run.exec ops).queue.m_queue : Multiset _) = ((Run.exec ops).pushed : Multiset _) := h0
    rw [h1, hp]
    exact Multiset.coe_eq_coe.2 (List.reverse_perm _)
  refine ⟨hmain, ?_⟩
  intro he
  have hnil : (Run.exec ops).queue.m_queue = [] := (empty_iff _).1 he
  rw [hnil] at hmain
  simpa using hmain

theorem try_pop_of_empty (q : mvWorkStealingQueue α) (res : mvFunctionWrapper α)
    (h : q.empty = true) : q.try_pop res = ⟨false, q, res⟩ := by
  simp only [empty] at h
  simp [try_pop, h]

theorem try_steal_of_empty (q : mvWorkStealingQueue α) (res : mvFunctionWrapper α)
    (h : q.empty = true) : q.try_steal res = ⟨false, q, res⟩ := by
  simp only [empty] at h
  simp [try_steal, h]

theorem try_steal_of_nonempty (q : mvWorkStealingQueue α) (res : mvFunctionWrapper α)
    (h : q.empty = false) :
    q.try_steal res = ⟨true, ⟨q.m_queue.dropLast⟩, q.m_queue.getLast?.getD res⟩ := by
  obtain ⟨front, back, hfb⟩ := exists_concat_of_ne_nil q.m_queue ((empty_eq_false_iff q).1 h)
  cases q with
  | mk l =>
    simp only at hfb
    subst hfb
    simp [try_steal_concat]

end mvWorkStealingQueue

/-! ## Properties of the stealing step -/

namespace mvThreadPool

variable {α ρ ε : Type}

/-- The probe order is the list of indices rotated to start just past the worker. -/
theorem probe_order_eq_rotate (s N : Nat) :
    probe_order s N = (List.range N).rotate ((s + 1) % N) := by
  apply List.ext_getElem
  · simp [probe_order]
  · intro k h1 h2
    simp only [probe_order, List.length_map, List.length_range] at h1
    simp only [probe_order, List.getElem_map, List.getElem_range, List.getElem_rotate,
      List.length_range]
    rw [Nat.add_comm k, Nat.mod_add_mod]

theorem probe_order_lt (s N k : Nat) (hk : k ∈ probe_order s N) : k < N := by
  simp only [probe_order, List.mem_map, List.mem_range] at hk
  obtain ⟨j, hj, rfl⟩ := hk
  exact Nat.mod_lt _ (by omega)

theorem filterMap_getElem?_eq_map (m : List Addr) (l : List Nat)
    (hl : ∀ k ∈ l, k < m.length) :
    l.filterMap (fun k => m[k]?) = l.map (fun k => m.getD k 0) := by
  induction l with
  | nil => rfl
  | cons k l ih =>
    have hk : k < m.length := hl k (List.mem_cons_self _ _)
    have ih1 := ih (fun x hx => hl x (List.mem_cons_of_mem _ hx))
    simp [List.filterMap_cons, List.getElem?_eq_getElem hk, ih1, List.getD_eq_getElem?_getD]

theorem map_getD_range (m : List Addr) :
    (List.range m.length).map (fun k => m.getD k 0) = m := by
  apply List.ext_getElem
  · simp
  · intro k h1 h2
    simp [List.getD_eq_getElem?_getD, List.getElem?_eq_getElem h2]

/-- The probed queues are the pool's vector of queues, rotated. -/
theorem probed_queues_eq_rotate (self : mvThreadPool) (s : Nat) :
    self.probed_queues s = self.m_queues.rotate ((s + 1) % self.m_queues.length) := by
  unfold probed_queues
  rw [filterMap_getElem?_eq_map _ _ (fun k hk => probe_order_lt s _ k hk),
    probe_order_eq_rotate, List.map_rotate, map_getD_range]

/-- The loop of the stealing step, entered at counter `i` with `n` iterations to go, is
the specification's search over the indices `i, .., i + n - 1`, provided the `unsigned`
sum cannot wrap. -/
theorem steal_loop_eq (self : mvThreadPool) (tl : ThreadLocal)
    (hw : tl.m_index + self.m_queues.length < UINT_MOD) :
    ∀ (n i : Nat) (h : Heap α) (task : mvFunctionWrapper α),
      i + n = self.m_queues.length →
      steal_loop self tl n i h task
        = steal_first_nonempty
            (((List.range' i n).map
              (fun j => (tl.m_index + 1 + j) % self.m_queues.length)).filterMap
                (fun k => self.m_queues[k]?)) h task := by
  intro n
  induction n with
  | zero =>
    intro i h task _
    simp [steal_loop, steal_first_nonempty]
  | succ n ih =>
    intro i h task hin
    have hi : i < self.m_queues.length := by omega
    have hsum : (tl.m_index + i + 1) % UINT_MOD = tl.m_index + 1 + i := by
      rw [Nat.mod_eq_of_lt (by omega)]
      omega
    have hlt : (tl.m_index + 1 + i) % self.m_queues.length < self.m_queues.length :=
      Nat.mod_lt _ (by omega)
    have hget := List.getElem?_eq_getElem hlt
    simp only [steal_loop, hsum, hget, List.range'_succ, List.map_cons, List.filterMap_cons]
    generalize self.m_queues[(tl.m_index + 1 + i) % self.m_queues.length] = q
    by_cases he : (h q).empty = true
    · rw [mvWorkStealingQueue.try_steal_of_empty _ _ he]
      simp only [Bool.false_eq_true, if_false, Function.update_eq_self]
      rw [ih (i + 1) h task (by omega)]
      simp [steal_first_nonempty, List.find?_cons, he]
    · have he2 : (h q).empty = false := by simpa using he
      rw [mvWorkStealingQueue.try_steal_of_nonempty _ _ he2]
      simp [steal_first_nonempty, List.find?_cons, he2]

/-- The member function is the specification's search over the probed queues. -/
theorem pop_task_from_other_thread_queue_eq (self : mvThreadPool) (tl : ThreadLocal)
    (hw : tl.m_index + self.m_queues.length < UINT_MOD) (h : Heap α)
    (task : mvFunctionWrapper α) :
    self.pop_task_from_other_thread_queue tl h task
      = steal_first_nonempty (self.probed_queues tl.m_index) h task := by
  unfold pop_task_from_other_thread_queue probed_queues probe_order
  rw [steal_loop_eq self tl hw _ 0 h task (by omega), List.range_eq_range']

/-- The search reports false exactly when every queue searched is empty. -/
theorem steal_first_nonempty_ret (addrs : List Addr) (h : Heap α)
    (task : mvFunctionWrapper α) :
    (steal_first_nonempty addrs h task).ret = false ↔ ∀ a ∈ addrs, (h a).empty = true := by
  unfold steal_first_nonempty
  cases hf : addrs.find? (fun a => !(h a).empty) with
  | none =>
    simp only [true_iff]
    intro a ha
    have := List.find?_eq_none.1 hf a ha
    simpa using this
  | some a =>
    simp only [Bool.true_eq_false, false_iff]
    intro hall
    have hm := List.mem_of_find?_eq_some hf
    have hp := List.find?_some hf
    simp [hall a hm] at hp

/-- Below `2^31` queues the `unsigned` sum `m_index + i + 1` stays below `2^32`. -/
theorem no_wrap (s N : Nat) (hs : s < N) (hN : N ≤ 2 ^ 31) : s + N < UINT_MOD := by
  have : (2 : Nat) ^ 32 = 2 * 2 ^ 31 := by norm_num
  unfold UINT_MOD
  omega

theorem probed_queues_perm (self : mvThreadPool) (s : Nat) :
    (self.probed_queues s).Perm self.m_queues := by
  rw [probed_queues_eq_rotate]
  exact List.rotate_perm _ _

/-- The stealing step returns false exactly when every queue of the pool is empty. -/
theorem steal_ret_false_iff (self : mvThreadPool) (tl : ThreadLocal)
    (hw : tl.m_index + self.m_queues.length < UINT_MOD) (h : Heap α)
    (task : mvFunctionWrapper α) :
    (self.pop_task_from_other_thread_queue tl h task).ret = false
      ↔ ∀ a ∈ self.m_queues, (h a).empty = true := by
  rw [pop_task_from_other_thread_queue_eq self tl hw h task, steal_first_nonempty_ret]
  have hperm := probed_queues_perm self tl.m_index
  constructor
  · intro hall a ha
    exact hall a (hperm.mem_iff.2 ha)
  · intro hall a ha
    exact hall a (hperm.mem_iff.1 ha)

/-- A stealing step that returns false has changed nothing. -/
theorem steal_false_unchanged (self : mvThreadPool) (tl : ThreadLocal)
    (hw : tl.m_index + self.m_queues.length < UINT_MOD) (h : Heap α)
    (task : mvFunctionWrapper α)
    (hf : (self.pop_task_from_other_thread_queue tl h task).ret = false) :
    (self.pop_task_from_other_thread_queue tl h task).heap = h ∧
    (self.pop_task_from_other_thread_queue tl h task).task = task := by
  rw [pop_task_from_other_thread_queue_eq self tl hw h task] at hf ⊢
  unfold steal_first_nonempty at hf ⊢
  cases hfind : (self.probed_queues tl.m_index).find? (fun a => !(h a).empty) with
  | none => simp
  | some a => simp [hfind] at hf

/-- The worker's own index is the last of the probe order, and it is not among the
indices probed before it. -/
theorem probe_order_own_last (s N : Nat) (hs : s < N) :
    probe_order s N = (List.range (N - 1)).map (fun j => (s + 1 + j) % N) ++ [s] ∧
    s ∉ (List.range (N - 1)).map (fun j => (s + 1 + j) % N) := by
  obtain ⟨M, rfl⟩ : ∃ M, N = M + 1 := ⟨N - 1, by omega⟩
  constructor
  · have hlast : (s + 1 + M) % (M + 1) = s := by
      rw [show s + 1 + M = s + (M + 1) by omega, Nat.add_mod_right, Nat.mod_eq_of_lt hs]
    simp [probe_order, List.range_succ, hlast]
  · simp only [Nat.add_sub_cancel, List.mem_map, List.mem_range, not_exists, not_and]
    intro j hj hmod
    by_cases hlt : s + 1 + j < M + 1
    · rw [Nat.mod_eq_of_lt hlt] at hmod
      omega
    · rw [Nat.mod_eq_sub_mod (by omega), Nat.mod_eq_of_lt (by omega)] at hmod
      omega

/-- C4, amended: for a pool of `N` queues with `1 <= N` (and `N <= 2^31`, so that the
`unsigned` sum `m_index + i + 1` cannot wrap) and a worker index `s < N`, the stealing
step is the search over the queues in the round-robin order `(s+1) mod N, (s+2) mod N,
..`, wrapping once through all `N` queues: every peer queue is probed exactly once and
then, as the last probe, the worker's own queue (index `s`), so that the order lists
every queue of the pool exactly once (it is the pool's vector rotated). The step removes
and returns the back task of the first non-empty queue in that order and changes no
other queue; and it returns false, with the heap and the caller's task untouched,
exactly when every queue of the pool, the worker's own included, is empty. -/
theorem steal_round_robin (self : mvThreadPool) (tl : ThreadLocal) (h : Heap α)
    (task : mvFunctionWrapper α)
    (hs : tl.m_index < self.m_queues.length) (hN : self.m_queues.length ≤ 2 ^ 31) :
    self.pop_task_from_other_thread_queue tl h task
        = steal_first_nonempty (self.probed_queues tl.m_index) h task ∧
    probe_order tl.m_index self.m_queues.length
        = (List.range self.m_queues.length).map
            (fun j => (tl.m_index + 1 + j) % self.m_queues.length) ∧
    (probe_order tl.m_index self.m_queues.length).Perm (List.range self.m_queues.length) ∧
    self.probed_queues tl.m_index
        = (probe_order tl.m_index self.m_queues.length).map (fun k => self.m_queues.getD k 0) ∧
    (self.probed_queues tl.m_index).Perm self.m_queues ∧
    (∀ a pre post,
      self.probed_queues tl.m_index = pre ++ a :: post →
      (∀ b ∈ pre, (h b).empty = true) → (h a).empty = false →
      (self.pop_task_from_other_thread_queue tl h task).ret = true ∧
      (h a).m_queue = ((self.pop_task_from_other_thread_queue tl h task).heap a).m_queue
          ++ [(self.pop_task_from_other_thread_queue tl h task).task] ∧
      ∀ b, b ≠ a → (self.pop_task_from_other_thread_queue tl h task).heap b = h b) ∧
    ((self.pop_task_from_other_thread_queue tl h task).ret = false
        ↔ ∀ a ∈ self.m_queues, (h a).empty = true) ∧
    ((self.pop_task_from_other_thread_queue tl h task).ret = false →
      (self.pop_task_from_other_thread_queue tl h task).heap = h ∧
      (self.pop_task_from_other_thread_queue tl h task).task = task) ∧
    probe_order tl.m_index self.m_queues.length
        = (List.range (self.m_queues.length - 1)).map
            (fun j => (tl.m_index + 1 + j) % self.m_queues.length) ++ [tl.m_index] ∧
    tl.m_index ∉ (List.range (self.m_queues.length - 1)).map
        (fun j => (tl.m_index + 1 + j) % self.m_queues.length) := by
  have hw : tl.m_index + self.m_queues.length < UINT_MOD := no_wrap _ _ hs hN
  have heq := pop_task_from_other_thread_queue_eq self tl hw h task
  have hperm := probed_queues_perm self tl.m_index
  have hlast := probe_order_own_last tl.m_index self.m_queues.length hs
  refine ⟨heq, rfl, ?_, ?_, hperm, ?_, steal_ret_false_iff self tl hw h task,
    steal_false_unchanged self tl hw h task, hlast.1, hlast.2⟩
  · rw [probe_order_eq_rotate]
    exact List.rotate_perm _ _
  · unfold probed_queues
    exact filterMap_getElem?_eq_map _ _ (fun k hk => probe_order_lt _ _ k hk)
  · intro a pre post hsplit hpre hne
    rw [heq]
    have hfind : (self.probed_queues tl.m_index).find? (fun a => !(h a).empty) = some a := by
      rw [hsplit, List.find?_append]
      have h1 : pre.find? (fun a => !(h a).empty) = none := by
        apply List.find?_eq_none.2
        intro b hb
        simp [hpre b hb]
      simp [h1, List.find?_cons, hne]
    obtain ⟨front, back, hfb⟩ := mvWorkStealingQueue.exists_concat_of_ne_nil (h a).m_queue
      ((mvWorkStealingQueue.empty_eq_false_iff _).1 hne)
    simp only [steal_first_nonempty, hfind]
    refine ⟨trivial, ?_, ?_⟩
    · simp [hfb]
    · intro b hb
      simp [Function.update_noteq hb]

/-! ## Properties of the worker loop and of `submit` -/

theorem worker_thread_eq (self : mvThreadPool) (i : Nat) (tl : ThreadLocal)
    (htl : self.worker_thread i = some tl) :
    ∃ own, self.m_queues[i]? = some own ∧ tl = ⟨some own, i⟩ ∧ i < self.m_queues.length := by
  unfold worker_thread at htl
  cases hq : self.m_queues[i]? with
  | none => simp [hq] at htl
  | some own =>
    simp only [hq, Option.some.injEq] at htl
    have hi : i < self.m_queues.length := by
      by_contra hcon
      rw [List.getElem?_eq_none (by omega)] at hq
      exact Option.noConfusion hq
    exact ⟨own, rfl, htl.symm, hi⟩

theorem run_task_ran (s : State ρ ε) (h : Heap (packaged_task ρ ε))
    (t : mvFunctionWrapper (packaged_task ρ ε)) : (run_task s h t).ran = .task t := by
  unfold run_task
  cases t.invoke s.shared <;> rfl

theorem run_task_heap (s : State ρ ε) (h : Heap (packaged_task ρ ε))
    (t : mvFunctionWrapper (packaged_task ρ ε)) : (run_task s h t).state.heap = h := by
  unfold run_task
  cases t.invoke s.shared <;> rfl

/-- The statement `task();` executes the task. -/
theorem run_task_executed (s : State ρ ε) (h : Heap (packaged_task ρ ε))
    (t : mvFunctionWrapper (packaged_task ρ ε)) : Executed s t (run_task s h t) := by
  unfold Executed run_task
  cases t.invoke s.shared with
  | ok sh =>
    refine ⟨rfl, rfl, ?_, ?_⟩
    · intro shared hs
      cases hs
      exact ⟨rfl, rfl⟩
    · intro e he
      cases he
  | error e =>
    refine ⟨rfl, rfl, ?_, ?_⟩
    · intro shared hs
      cases hs
    · intro e2 he
      cases he
      exact ⟨rfl, rfl⟩

/-- Executing a non-empty task whose promise is not yet fulfilled stores the outcome of
its callable in its shared state, without a fault. -/
theorem Executed.stores (s : State ρ ε) (t : mvFunctionWrapper (packaged_task ρ ε))
    (it : Iteration ρ ε) (hex : Executed s t it) (pt : packaged_task ρ ε)
    (hm : t.m_impl = some pt) (hnone : s.shared pt.state = none) :
    it.state.shared = Function.update s.shared pt.state (some (pt.f ())) ∧
    it.fault = none := by
  apply hex.2.2.1
  simp [mvFunctionWrapper.invoke, hm, packaged_task.invoke, hnone]

theorem local_pop_cons (own : Addr) (i : Nat) (h : Heap α) (task t : mvFunctionWrapper α)
    (rest : List (mvFunctionWrapper α)) (hq : (h own).m_queue = t :: rest) :
    pop_task_from_local_queue ⟨some own, i⟩ h task
      = ⟨true, Function.update h own ⟨rest⟩, t⟩ := by
  have : h own = ⟨t :: rest⟩ := by
    cases hh : h own with
    | mk l => rw [hh] at hq; simpa using hq
  simp [pop_task_from_local_queue, this, mvWorkStealingQueue.try_pop_cons]

theorem local_pop_empty (own : Addr) (i : Nat) (h : Heap α) (task : mvFunctionWrapper α)
    (hq : (h own).empty = true) :
    pop_task_from_local_queue ⟨some own, i⟩ h task = ⟨false, h, task⟩ := by
  simp [pop_task_from_local_queue, mvWorkStealingQueue.try_pop_of_empty _ _ hq]

theorem local_pop_null (i : Nat) (h : Heap α) (task : mvFunctionWrapper α) :
    pop_task_from_local_queue ⟨none, i⟩ h task = ⟨false, h, task⟩ := by
  simp [pop_task_from_local_queue]

theorem pool_pop_cons (self : mvThreadPool) (h : Heap α) (task t : mvFunctionWrapper α)
    (rest : List (mvFunctionWrapper α))
    (hq : (h self.m_pool_work_queue).m_queue = t :: rest) :
    self.pop_task_from_pool_queue h task
      = ⟨true, Function.update h self.m_pool_work_queue ⟨rest⟩, t⟩ := by
  have : h self.m_pool_work_queue = ⟨t :: rest⟩ := by
    cases hh : h self.m_pool_work_queue with
    | mk l => rw [hh] at hq; simpa using hq
  simp [pop_task_from_pool_queue, this, mvWorkStealingQueue.try_pop_cons]

theorem pool_pop_empty (self : mvThreadPool) (h : Heap α) (task : mvFunctionWrapper α)
    (hq : (h self.m_pool_work_queue).empty = true) :
    self.pop_task_from_pool_queue h task = ⟨false, h, task⟩ := by
  simp [pop_task_from_pool_queue, mvWorkStealingQueue.try_pop_of_empty _ _ hq]

theorem exists_cons_of_nonempty (q : mvWorkStealingQueue α) (hq : q.empty = false) :
    ∃ t rest, q.m_queue = t :: rest := by
  cases q with
  | mk l =>
    cases l with
    | nil => simp [mvWorkStealingQueue.empty] at hq
    | cons t rest => exact ⟨t, rest, rfl⟩

theorem took_of_cons (h : Heap α) (a : Addr) (t : mvFunctionWrapper α)
    (rest : List (mvFunctionWrapper α)) (hq : (h a).m_queue = t :: rest) :
    Took h (Function.update h a ⟨rest⟩) t a :=
  ⟨[], rest, by simpa using hq, by simp⟩

theorem took_of_concat (h : Heap α) (a : Addr) (t : mvFunctionWrapper α)
    (front : List (mvFunctionWrapper α)) (hq : (h a).m_queue = front ++ [t]) :
    Took h (Function.update h a ⟨front⟩) t a :=
  ⟨front, [], hq, by simp⟩

/-- What `pop_task_from_local_queue` can do: nothing, or take one task from the queue
the thread-local pointer points to. -/
theorem pop_local_cases (tl : ThreadLocal) (h : Heap α) (task : mvFunctionWrapper α) :
    ((pop_task_from_local_queue tl h task).ret = false ∧
      (pop_task_from_local_queue tl h task).heap = h ∧
      (pop_task_from_local_queue tl h task).task = task) ∨
    ((pop_task_from_local_queue tl h task).ret = true ∧
      ∃ a, tl.m_local_work_queue = some a ∧
        Took h (pop_task_from_local_queue tl h task).heap
          (pop_task_from_local_queue tl h task).task a) := by
  obtain ⟨ptr, i⟩ := tl
  cases ptr with
  | none => left; simp [local_pop_null]
  | some a =>
    by_cases he : (h a).empty = true
    · left; simp [local_pop_empty a i h task he]
    · obtain ⟨t, rest, hq⟩ := exists_cons_of_nonempty _ (by simpa using he)
      right
      rw [local_pop_cons a i h task t rest hq]
      exact ⟨rfl, a, rfl, took_of_cons h a t rest hq⟩

/-- What `pop_task_from_pool_queue` can do: nothing, or take one task from the overflow
queue. -/
theorem pop_pool_cases (self : mvThreadPool) (h : Heap α) (task : mvFunctionWrapper α) :
    ((self.pop_task_from_pool_queue h task).ret = false ∧
      (self.pop_task_from_pool_queue h task).heap = h ∧
      (self.pop_task_from_pool_queue h task).task = task) ∨
    ((self.pop_task_from_pool_queue h task).ret = true ∧
      Took h (self.pop_task_from_pool_queue h task).heap
        (self.pop_task_from_pool_queue h task).task self.m_pool_work_queue) := by
  by_cases he : (h self.m_pool_work_queue).empty = true
  · left; simp [pool_pop_empty self h task he]
  · obtain ⟨t, rest, hq⟩ := exists_cons_of_nonempty _ (by simpa using he)
    right
    rw [pool_pop_cons self h task t rest hq]
    exact ⟨rfl, took_of_cons h _ t rest hq⟩

/-- What the stealing loop can do, whatever the indices: nothing, or take one task from
one of the pool's queues. -/
theorem steal_loop_cases (self : mvThreadPool) (tl : ThreadLocal) :
    ∀ (n i : Nat) (h : Heap α) (task : mvFunctionWrapper α),
      ((steal_loop self tl n i h task).ret = false ∧
        (steal_loop self tl n i h task).heap = h ∧
        (steal_loop self tl n i h task).task = task) ∨
      ((steal_loop self tl n i h task).ret = true ∧
        ∃ a ∈ self.m_queues,
          Took h (steal_loop self tl n i h task).heap (steal_loop self tl n i h task).task a) := by
  intro n
  induction n with
  | zero => intro i h task; left; simp [steal_loop]
  | succ n ih =>
    intro i h task
    simp only [steal_loop]
    cases hget : self.m_queues[(tl.m_index + i + 1) % UINT_MOD % self.m_queues.length]? with
    | none => left; simp
    | some q =>
      have hmem : q ∈ self.m_queues := List.mem_iff_getElem?.2 ⟨_, hget⟩
      dsimp only
      by_cases he : (h q).empty = true
      · rw [mvWorkStealingQueue.try_steal_of_empty _ _ he]
        simp only [Bool.false_eq_true, if_false, Function.update_eq_self]
        exact ih (i + 1) h task
      · have he2 : (h q).empty = false := by simpa using he
        obtain ⟨front, back, hfb⟩ := mvWorkStealingQueue.exists_concat_of_ne_nil (h q).m_queue
          ((mvWorkStealingQueue.empty_eq_false_iff _).1 he2)
        right
        rw [mvWorkStealingQueue.try_steal_of_nonempty _ _ he2]
        simp only [if_true, true_and]
        refine ⟨q, hmem, ?_⟩
        have := took_of_concat h q back front hfb
        simpa [hfb] using this

/-- What one call of `run_pending_task` can do, for any thread: yield with the state
unchanged, or take one task from the thread's own queue, the overflow queue or one of the
pool's queues and run it. -/
theorem run_pending_task_cases (self : mvThreadPool) (tl : ThreadLocal) (s : State ρ ε) :
    ((self.run_pending_task tl s).ran = .yield ∧ (self.run_pending_task tl s).state = s ∧
      (self.run_pending_task tl s).fault = none) ∨
    (∃ w a h2, (tl.m_local_work_queue = some a ∨ a = self.m_pool_work_queue ∨
        a ∈ self.m_queues) ∧
      Took s.heap h2 w a ∧ self.run_pending_task tl s = run_task s h2 w) := by
  unfold run_pending_task
  rcases pop_local_cases tl s.heap
    (mvFunctionWrapper.empty : mvFunctionWrapper (packaged_task ρ ε)) with
    ⟨h1, h2, h3⟩ | ⟨h1, a, ha, htook⟩
  · simp only [h1, h2, h3, Bool.false_eq_true, if_false]
    rcases pop_pool_cases self s.heap
      (mvFunctionWrapper.empty : mvFunctionWrapper (packaged_task ρ ε)) with
      ⟨p1, p2, p3⟩ | ⟨p1, ptook⟩
    · simp only [p1, p2, p3, Bool.false_eq_true, if_false]
      rcases steal_loop_cases self tl self.m_queues.length 0 s.heap
        (mvFunctionWrapper.empty : mvFunctionWrapper (packaged_task ρ ε)) with
        ⟨q1, q2, q3⟩ | ⟨q1, a, ha, qtook⟩
      · left
        simp [pop_task_from_other_thread_queue, q1, q2]
      · right
        simp only [pop_task_from_other_thread_queue, q1, if_true]
        exact ⟨_, a, _, Or.inr (Or.inr ha), qtook, rfl⟩
    · right
      simp only [p1, if_true]
      exact ⟨_, _, _, Or.inr (Or.inl rfl), ptook, rfl⟩
  · right
    simp only [h1, if_true]
    exact ⟨_, a, _, Or.inl ha, htook, rfl⟩

/-- A worker whose own queue has `t` at the front runs `t`, popped from that queue. -/
theorem run_pending_task_own (self : mvThreadPool) (own : Addr) (i : Nat) (s : State ρ ε)
    (t : mvFunctionWrapper (packaged_task ρ ε))
    (rest : List (mvFunctionWrapper (packaged_task ρ ε)))
    (hq : (s.heap own).m_queue = t :: rest) :
    self.run_pending_task ⟨some own, i⟩ s
      = run_task s (Function.update s.heap own ⟨rest⟩) t := by
  simp [run_pending_task, local_pop_cons own i s.heap _ t rest hq]

/-- C3: one call of `run_pending_task` by worker `i` of a pool of `N` queues (`i < N`,
and `N <= 2^31` so that the `unsigned` index sum cannot wrap), taken as one step on the
pool state, chooses in strict priority order. If the worker's own queue is non-empty it
executes that queue's front task (it invokes `task()` on it, with the effect of that
call on the shared states and its fault) and changes no other queue. Otherwise, if the
overflow queue is non-empty it executes the overflow queue's front task and changes no
other queue. Otherwise it does what the stealing step yields: the queues are as that
step left them, and it executes the stolen task if that step returned true and yields
if not. It executes no task (it yields, the whole state unchanged, no fault) exactly
when the own queue, the overflow queue and every queue of the pool are empty. -/
theorem run_pending_task_priority (self : mvThreadPool) (i : Nat) (tl : ThreadLocal)
    (s : State ρ ε) (hN : self.m_queues.length ≤ 2 ^ 31)
    (htl : self.worker_thread i = some tl) :
    ∃ own, self.m_queues[i]? = some own ∧ tl.m_local_work_queue = some own ∧
    (∀ t rest, (s.heap own).m_queue = t :: rest →
      Executed s t (self.run_pending_task tl s) ∧
      ((self.run_pending_task tl s).state.heap own).m_queue = rest ∧
      ∀ b, b ≠ own → (self.run_pending_task tl s).state.heap b = s.heap b) ∧
    (∀ t rest, (s.heap own).empty = true →
      (s.heap self.m_pool_work_queue).m_queue = t :: rest →
      Executed s t (self.run_pending_task tl s) ∧
      ((self.run_pending_task tl s).state.heap self.m_pool_work_queue).m_queue = rest ∧
      ∀ b, b ≠ self.m_pool_work_queue →
        (self.run_pending_task tl s).state.heap b = s.heap b) ∧
    ((s.heap own).empty = true → (s.heap self.m_pool_work_queue).empty = true →
      (self.run_pending_task tl s).state.heap
        = (self.pop_task_from_other_thread_queue tl s.heap mvFunctionWrapper.empty).heap ∧
      ((self.pop_task_from_other_thread_queue tl s.heap mvFunctionWrapper.empty).ret = true →
        Executed s
          (self.pop_task_from_other_thread_queue tl s.heap mvFunctionWrapper.empty).task
          (self.run_pending_task tl s)) ∧
      ((self.pop_task_from_other_thread_queue tl s.heap mvFunctionWrapper.empty).ret = false →
        (self.run_pending_task tl s).ran = .yield)) ∧
    ((self.run_pending_task tl s).ran = .yield ↔
      (s.heap own).empty = true ∧ (s.heap self.m_pool_work_queue).empty = true ∧
      ∀ a ∈ self.m_queues, (s.heap a).empty = true) ∧
    ((self.run_pending_task tl s).ran = .yield →
      (self.run_pending_task tl s).state = s ∧ (self.run_pending_task tl s).fault = none) := by
  obtain ⟨own, hown, rfl, hi⟩ := worker_thread_eq self i tl htl
  have hw : (⟨some own, i⟩ : ThreadLocal).m_index + self.m_queues.length < UINT_MOD :=
    no_wrap _ _ hi hN
  have hret := steal_ret_false_iff self ⟨some own, i⟩ hw s.heap
    (mvFunctionWrapper.empty : mvFunctionWrapper (packaged_task ρ ε))
  have hsame := steal_false_unchanged self ⟨some own, i⟩ hw s.heap
    (mvFunctionWrapper.empty : mvFunctionWrapper (packaged_task ρ ε))
  have case1 := run_pending_task_own self own i s
  have case2 : ∀ t rest, (s.heap own).empty = true →
      (s.heap self.m_pool_work_queue).m_queue = t :: rest →
      self.run_pending_task ⟨some own, i⟩ s
        = run_task s (Function.update s.heap self.m_pool_work_queue ⟨rest⟩) t := by
    intro t rest he hq
    simp [run_pending_task, local_pop_empty own i s.heap _ he,
      pool_pop_cons self s.heap _ t rest hq]
  have case3 : (s.heap own).empty = true → (s.heap self.m_pool_work_queue).empty = true →
      self.run_pending_task ⟨some own, i⟩ s
        = if (self.pop_task_from_other_thread_queue ⟨some own, i⟩ s.heap
              mvFunctionWrapper.empty).ret
          then run_task s
            (self.pop_task_from_other_thread_queue ⟨some own, i⟩ s.heap
              mvFunctionWrapper.empty).heap
            (self.pop_task_from_other_thread_queue ⟨some own, i⟩ s.heap
              mvFunctionWrapper.empty).task
          else ⟨{ s with heap := (self.pop_task_from_other_thread_queue ⟨some own, i⟩ s.heap
              mvFunctionWrapper.empty).heap }, .yield, none⟩ := by
    intro he hp
    simp [run_pending_task, local_pop_empty own i s.heap _ he,
      pool_pop_empty self s.heap _ hp]
  refine ⟨own, hown, rfl, ?_, ?_, ?_, ?_, ?_⟩
  · intro t rest hq
    rw [case1 t rest hq, run_task_heap]
    refine ⟨run_task_executed _ _ _, by simp, ?_⟩
    intro b hb
    simp [Function.update_noteq hb]
  · intro t rest he hq
    rw [case2 t rest he hq, run_task_heap]
    refine ⟨run_task_executed _ _ _, by simp, ?_⟩
    intro b hb
    simp [Function.update_noteq hb]
  · intro he hp
    rw [case3 he hp]
    refine ⟨?_, ?_, ?_⟩
    · split
      · rw [run_task_heap]
      · rfl
    · intro ht
      rw [if_pos ht]
      exact run_task_executed _ _ _
    · intro hf
      rw [if_neg (by simp [hf])]
  · constructor
    · intro hy
      by_cases he : (s.heap own).empty = true
      · by_cases hp : (s.heap self.m_pool_work_queue).empty = true
        · refine ⟨he, hp, ?_⟩
          rw [case3 he hp] at hy
          apply hret.1
          by_contra hne
          have ht : (self.pop_task_from_other_thread_queue ⟨some own, i⟩ s.heap
              (mvFunctionWrapper.empty : mvFunctionWrapper (packaged_task ρ ε))).ret
              = true := by simpa using hne
          rw [if_pos ht, run_task_ran] at hy
          exact Ran.noConfusion hy
        · obtain ⟨t, rest, hq⟩ := exists_cons_of_nonempty _ (by simpa using hp)
          rw [case2 t rest he hq, run_task_ran] at hy
          exact Ran.noConfusion hy
      · obtain ⟨t, rest, hq⟩ := exists_cons_of_nonempty _ (by simpa using he)
        rw [case1 t rest hq, run_task_ran] at hy
        exact Ran.noConfusion hy
    · rintro ⟨he, hp, hall⟩
      rw [case3 he hp]
      have hf := hret.2 hall
      rw [hf]
      simp
  · intro hy
    by_cases he : (s.heap own).empty = true
    · by_cases hp : (s.heap self.m_pool_work_queue).empty = true
      · rw [case3 he hp] at hy ⊢
        by_cases ht : (self.pop_task_from_other_thread_queue ⟨some own, i⟩ s.heap
            (mvFunctionWrapper.empty : mvFunctionWrapper (packaged_task ρ ε))).ret = true
        · rw [if_pos ht, run_task_ran] at hy
          exact Ran.noConfusion hy
        · have hf : (self.pop_task_from_other_thread_queue ⟨some own, i⟩ s.heap
              (mvFunctionWrapper.empty : mvFunctionWrapper (packaged_task ρ ε))).ret
              = false := by simpa using ht
          rw [if_neg ht]
          simp [(hsame hf).1]
      · obtain ⟨t, rest, hq⟩ := exists_cons_of_nonempty _ (by simpa using hp)
        rw [case2 t rest he hq, run_task_ran] at hy
        exact Ran.noConfusion hy
    · obtain ⟨t, rest, hq⟩ := exists_cons_of_nonempty _ (by simpa using he)
      rw [case1 t rest hq, run_task_ran] at hy
      exact Ran.noConfusion hy

theorem submit_heap (self : mvThreadPool) (tl : ThreadLocal) (s : State ρ ε)
    (f : Unit → Outcome ρ ε) :
    (self.submit tl s f).1.heap
      = Function.update s.heap (tl.m_local_work_queue.getD self.m_pool_work_queue)
          ((s.heap (tl.m_local_work_queue.getD self.m_pool_work_queue)).push
            (.ofCallable ⟨f, s.next⟩)) ∧
    (self.submit tl s f).1.shared = s.shared ∧
    (self.submit tl s f).1.next = s.next + 1 ∧
    (self.submit tl s f).2 = ⟨s.next⟩ := by
  obtain ⟨ptr, i⟩ := tl
  cases ptr <;> simp [submit, packaged_task.get_future]

/-- C2, the claim fails: a worker thread of another pool calls `submit` on `pool`. The
caller is not a worker of `pool`, yet the overflow queue of `pool` does not gain the
task: no queue of `pool` changes, and the task lands on the caller's own queue, which
belongs to the other pool. -/
theorem submit_from_worker_of_other_pool :
    Example.other_pool.worker_thread 0 = some ⟨some 11, 0⟩ ∧
    (∀ i, Example.pool.worker_thread i ≠ some ⟨some 11, 0⟩) ∧
    ((Example.pool.submit ⟨some 11, 0⟩ State.initial Example.get_age).1.heap
        Example.pool.m_pool_work_queue
      ≠ ((State.initial : State Nat String).heap Example.pool.m_pool_work_queue).push
          (.ofCallable ⟨Example.get_age, 0⟩)) ∧
    (∀ a, a = Example.pool.m_pool_work_queue ∨ a ∈ Example.pool.m_queues →
      (Example.pool.submit ⟨some 11, 0⟩ State.initial Example.get_age).1.heap a
        = (State.initial : State Nat String).heap a) ∧
    ((Example.pool.submit ⟨some 11, 0⟩ State.initial Example.get_age).1.heap 11).m_queue
      = [.ofCallable ⟨Example.get_age, 0⟩] := by
  refine ⟨rfl, ?_, ?_, ?_, ?_⟩
  · intro i
    match i with
    | 0 => simp [worker_thread, Example.pool]
    | 1 => simp [worker_thread, Example.pool]
    | 2 => simp [worker_thread, Example.pool]
    | n + 3 => simp [worker_thread, Example.pool]
  · simp [submit, State.initial, Example.pool, mvWorkStealingQueue.push,
      mvWorkStealingQueue.new]
  · intro a ha
    have hne : a ≠ 11 := by
      simp [Example.pool] at ha
      rcases ha with rfl | rfl | rfl | rfl <;> decide
    simp [submit, State.initial, Function.update_noteq hne]
  · simp [submit, State.initial, mvWorkStealingQueue.push, mvWorkStealingQueue.new]

/-- C2, amended: `submit` routes by the calling thread's thread-local queue pointer,
which is shared by all pools. If the pointer is set, which is the case exactly for a
thread that runs the worker loop of some pool, the task is pushed on the front of the
queue it points to: the caller's own queue, which is a queue of `self` when the caller
is a worker of `self`. If the pointer is null (the caller is no pool's worker) the task
is pushed on the front of the overflow queue of `self`. In both cases exactly one queue
gains exactly the task, at its front, and every other queue is unchanged. -/
theorem submit_routes_by_thread_local (self : mvThreadPool) (tl : ThreadLocal)
    (s : State ρ ε) (f : Unit → Outcome ρ ε) :
    ThreadLocal.fresh.m_local_work_queue = none ∧
    (∀ i, self.worker_thread i = some tl →
      ∃ own, self.m_queues[i]? = some own ∧ tl.m_local_work_queue = some own) ∧
    (∀ (pool : mvThreadPool) (i : Nat), pool.worker_thread i = some tl →
      ∃ own, pool.m_queues[i]? = some own ∧ tl.m_local_work_queue = some own) ∧
    (∀ q, tl.m_local_work_queue = some q →
      ((self.submit tl s f).1.heap q).m_queue
        = .ofCallable ⟨f, s.next⟩ :: (s.heap q).m_queue ∧
      ∀ b, b ≠ q → (self.submit tl s f).1.heap b = s.heap b) ∧
    (tl.m_local_work_queue = none →
      ((self.submit tl s f).1.heap self.m_pool_work_queue).m_queue
        = .ofCallable ⟨f, s.next⟩ :: (s.heap self.m_pool_work_queue).m_queue ∧
      ∀ b, b ≠ self.m_pool_work_queue → (self.submit tl s f).1.heap b = s.heap b) := by
  have hw : ∀ (pool : mvThreadPool) (i : Nat), pool.worker_thread i = some tl →
      ∃ own, pool.m_queues[i]? = some own ∧ tl.m_local_work_queue = some own := by
    intro pool i htl
    obtain ⟨own, hown, rfl, -⟩ := worker_thread_eq pool i tl htl
    exact ⟨own, hown, rfl⟩
  refine ⟨rfl, hw self, hw, ?_, ?_⟩
  · intro q hq
    rw [(submit_heap self tl s f).1, hq]
    refine ⟨by simp [mvWorkStealingQueue.push], ?_⟩
    intro b hb
    simp [Function.update_noteq hb]
  · intro hq
    rw [(submit_heap self tl s f).1, hq]
    refine ⟨by simp [mvWorkStealingQueue.push], ?_⟩
    intro b hb
    simp [Function.update_noteq hb]

/-- Removing a task keeps every queued task non-empty. -/
theorem NonEmptyTasks.of_took (self : mvThreadPool) (h h2 : Heap α) (w : mvFunctionWrapper α)
    (a : Addr) (hinv : NonEmptyTasks self h) (ht : Took h h2 w a) : NonEmptyTasks self h2 := by
  obtain ⟨pre, post, hq, rfl⟩ := ht
  have hsub : ∀ b, ∀ t ∈ (Function.update h a ⟨pre ++ post⟩ b).m_queue, t ∈ (h b).m_queue := by
    intro b t ht
    by_cases hb : b = a
    · subst hb
      simp only [Function.update_same, List.mem_append] at ht
      rw [hq]
      rcases ht with ht | ht
      · exact List.mem_append_left _ ht
      · exact List.mem_append_right _ (List.mem_cons_of_mem _ ht)
    · simpa [Function.update_noteq hb] using ht
  exact ⟨fun t ht => hinv.1 t (hsub _ t ht), fun b hb t ht => hinv.2 b hb t (hsub _ t ht)⟩

/-- C10: if every task held in the pool's queues is non-empty, one call of
`run_pending_task` by a worker of the pool never invokes an empty task: it invokes
`task()` only when one of the three attempts returned true, the task invoked is then a
non-empty task that was held in one of the pool's queues, and the null dereference does
not happen. That every queued task is non-empty is preserved by this call and by
`submit` from any thread. -/
theorem never_invokes_empty_task (self : mvThreadPool) (i : Nat) (tl : ThreadLocal)
    (s : State ρ ε) (htl : self.worker_thread i = some tl)
    (hinv : NonEmptyTasks self s.heap) :
    (self.run_pending_task tl s).fault ≠ some .null_call ∧
    (∀ t, (self.run_pending_task tl s).ran = .task t →
      t.m_impl ≠ none ∧
      (t ∈ (s.heap self.m_pool_work_queue).m_queue ∨
        ∃ a ∈ self.m_queues, t ∈ (s.heap a).m_queue)) ∧
    ((∃ t, (self.run_pending_task tl s).ran = .task t) ↔
      (pop_task_from_local_queue tl s.heap mvFunctionWrapper.empty).ret = true ∨
      (self.pop_task_from_pool_queue
        (pop_task_from_local_queue tl s.heap mvFunctionWrapper.empty).heap
        (pop_task_from_local_queue tl s.heap mvFunctionWrapper.empty).task).ret = true ∨
      (self.pop_task_from_other_thread_queue tl
        (self.pop_task_from_pool_queue
          (pop_task_from_local_queue tl s.heap mvFunctionWrapper.empty).heap
          (pop_task_from_local_queue tl s.heap mvFunctionWrapper.empty).task).heap
        (self.pop_task_from_pool_queue
          (pop_task_from_local_queue tl s.heap mvFunctionWrapper.empty).heap
          (pop_task_from_local_queue tl s.heap mvFunctionWrapper.empty).task).task).ret
        = true) ∧
    NonEmptyTasks self (self.run_pending_task tl s).state.heap ∧
    (∀ (tl2 : ThreadLocal) (f : Unit → Outcome ρ ε),
      NonEmptyTasks self (self.submit tl2 s f).1.heap) := by
  obtain ⟨own, hown, rfl, -⟩ := worker_thread_eq self i tl htl
  have hownmem : own ∈ self.m_queues := List.mem_iff_getElem?.2 ⟨_, hown⟩
  have hmem : ∀ (w : mvFunctionWrapper (packaged_task ρ ε)) (a : Addr) (h2 : Heap _),
      ((⟨some own, i⟩ : ThreadLocal).m_local_work_queue = some a ∨
        a = self.m_pool_work_queue ∨ a ∈ self.m_queues) →
      Took s.heap h2 w a →
      w.m_impl ≠ none ∧ (w ∈ (s.heap self.m_pool_work_queue).m_queue ∨
        ∃ a ∈ self.m_queues, w ∈ (s.heap a).m_queue) := by
    intro w a h2 hloc ht
    obtain ⟨pre, post, hq, -⟩ := ht
    have hw : w ∈ (s.heap a).m_queue := by rw [hq]; simp
    rcases hloc with hl | hl | hl
    · simp only [Option.some.injEq] at hl
      subst hl
      exact ⟨hinv.2 _ hownmem w hw, Or.inr ⟨_, hownmem, hw⟩⟩
    · subst hl
      exact ⟨hinv.1 w hw, Or.inl hw⟩
    · exact ⟨hinv.2 a hl w hw, Or.inr ⟨a, hl, hw⟩⟩
  refine ⟨?_, ?_, ?_, ?_, ?_⟩
  · rcases run_pending_task_cases self ⟨some own, i⟩ s with ⟨-, -, hf⟩ | ⟨w, a, h2, hloc, ht, hrun⟩
    · rw [hf]; simp
    · rw [hrun]
      have hne := (hmem w a h2 hloc ht).1
      unfold run_task mvFunctionWrapper.invoke
      cases hm : w.m_impl with
      | none => exact absurd hm hne
      | some pt =>
        simp only [packaged_task.invoke]
        cases s.shared pt.state <;> simp
  · intro t hran
    rcases run_pending_task_cases self ⟨some own, i⟩ s with ⟨hy, -, -⟩ | ⟨w, a, h2, hloc, ht, hrun⟩
    · rw [hy] at hran; exact Ran.noConfusion hran
    · rw [hrun, run_task_ran] at hran
      cases hran
      exact hmem t a h2 hloc ht
  · unfold run_pending_task
    simp only
    split
    · simp [run_task_ran, *]
    · split
      · simp [run_task_ran, *]
      · split
        · simp [run_task_ran, *]
        · simp [*]
  · rcases run_pending_task_cases self ⟨some own, i⟩ s with ⟨-, hs, -⟩ | ⟨w, a, h2, hloc, ht, hrun⟩
    · rw [hs]; exact hinv
    · rw [hrun, run_task_heap]
      exact NonEmptyTasks.of_took self s.heap h2 w a hinv ht
  · intro tl2 f
    rw [(submit_heap self tl2 s f).1]
    have hsub : ∀ b, ∀ t ∈ (Function.update s.heap (tl2.m_local_work_queue.getD
        self.m_pool_work_queue) ((s.heap (tl2.m_local_work_queue.getD
        self.m_pool_work_queue)).push (.ofCallable ⟨f, s.next⟩)) b).m_queue,
        t = .ofCallable ⟨f, s.next⟩ ∨ t ∈ (s.heap b).m_queue := by
      intro b t ht
      by_cases hb : b = tl2.m_local_work_queue.getD self.m_pool_work_queue
      · subst hb
        simpa [mvWorkStealingQueue.push] using ht
      · right
        simpa [Function.update_noteq hb] using ht
    constructor
    · intro t ht
      rcases hsub _ t ht with rfl | h1
      · simp [mvFunctionWrapper.ofCallable]
      · exact hinv.1 t h1
    · intro b hb t ht
      rcases hsub _ t ht with rfl | h1
      · simp [mvFunctionWrapper.ofCallable]
      · exact hinv.2 b hb t h1

end mvThreadPool

/-! ## Futures: the outcome of a submitted callable -/

namespace State

variable {ρ ε : Type}

theorem mem_states (q : mvWorkStealingQueue (packaged_task ρ ε)) (k : Nat) :
    k ∈ q.states ↔ ∃ w ∈ q.m_queue, ∃ t, w.m_impl = some t ∧ t.state = k := by
  simp only [mvWorkStealingQueue.states, List.mem_filterMap]
  constructor
  · rintro ⟨w, hw, hk⟩
    cases hm : w.m_impl with
    | none => simp [hm] at hk
    | some t =>
      simp only [hm, Option.map_some', Option.some.injEq] at hk
      exact ⟨w, hw, t, hm, hk⟩
  · rintro ⟨w, hw, t, ht, hk⟩
    exact ⟨w, hw, by simp [ht, hk]⟩

/-- The initial state is sound. -/
theorem sound_initial : Sound (initial : State ρ ε) where
  nonempty := by intro a w hw; simp [initial, mvWorkStealingQueue.new] at hw
  pending := by
    intro a k hk
    simp [initial, mvWorkStealingQueue.new, mvWorkStealingQueue.states] at hk
  nodup := by intro a; simp [initial, mvWorkStealingQueue.new, mvWorkStealingQueue.states]
  disjoint := by
    intro a b _
    simp [initial, mvWorkStealingQueue.new, mvWorkStealingQueue.states]
  fresh := by intro k _; rfl

/-- In a sound state, running a task just taken from a queue fulfils the promise of its
packaged task, which was not ready, without a fault; the task's shared state is then no
longer referred to by any queue, and the state is again sound. -/
theorem Sound.run_task_sound (s : State ρ ε) (h2 : Heap (packaged_task ρ ε))
    (w : mvFunctionWrapper (packaged_task ρ ε)) (a : Addr) (hs : Sound s)
    (ht : mvThreadPool.Took s.heap h2 w a) :
    ∃ t, w.m_impl = some t ∧ s.shared t.state = none ∧ t.state < s.next ∧
      w ∈ (s.heap a).m_queue ∧
      mvThreadPool.run_task s h2 w
        = ⟨⟨h2, Function.update s.shared t.state (some (t.f ())), s.next⟩, .task w, none⟩ ∧
      (∀ b, t.state ∉ (h2 b).states) ∧
      (∀ b, ∀ x ∈ (h2 b).m_queue, x ∈ (s.heap b).m_queue) ∧
      Sound (mvThreadPool.run_task s h2 w).state := by
  obtain ⟨pre, post, hq, rfl⟩ := ht
  have hw : w ∈ (s.heap a).m_queue := by rw [hq]; simp
  cases hm : w.m_impl with
  | none => exact absurd hm (hs.nonempty a w hw)
  | some t =>
    have hk : t.state ∈ (s.heap a).states := (mem_states _ _).2 ⟨w, hw, t, hm, rfl⟩
    obtain ⟨hlt, hnone⟩ := hs.pending a _ hk
    have hrun : mvThreadPool.run_task s (Function.update s.heap a ⟨pre ++ post⟩) w
        = ⟨⟨Function.update s.heap a ⟨pre ++ post⟩,
            Function.update s.shared t.state (some (t.f ())), s.next⟩, .task w, none⟩ := by
      simp [mvThreadPool.run_task, mvFunctionWrapper.invoke, hm, packaged_task.invoke, hnone]
    -- the shared states referred to by the queue at `a`, before and after
    have hbefore : (s.heap a).states
        = (pre.filterMap (fun w => w.m_impl.map (fun t => t.state)))
          ++ t.state :: (post.filterMap (fun w => w.m_impl.map (fun t => t.state))) := by
      simp [mvWorkStealingQueue.states, hq, List.filterMap_append, List.filterMap_cons, hm]
    have hafter : (Function.update s.heap a ⟨pre ++ post⟩ a).states
        = (pre.filterMap (fun w => w.m_impl.map (fun t => t.state)))
          ++ (post.filterMap (fun w => w.m_impl.map (fun t => t.state))) := by
      simp [mvWorkStealingQueue.states, List.filterMap_append]
    have hnd := hs.nodup a
    rw [hbefore, List.nodup_middle, List.nodup_cons] at hnd
    have hgone : ∀ b, t.state ∉ (Function.update s.heap a ⟨pre ++ post⟩ b).states := by
      intro b
      by_cases hb : b = a
      · subst hb
        rw [hafter]
        exact hnd.1
      · rw [Function.update_noteq hb]
        intro hmem
        exact hs.disjoint a b (Ne.symm hb) hk hmem
    have hsubq : ∀ b, ∀ x ∈ (Function.update s.heap a ⟨pre ++ post⟩ b).m_queue,
        x ∈ (s.heap b).m_queue := by
      intro b x hx
      by_cases hb : b = a
      · subst hb
        simp only [Function.update_same, List.mem_append] at hx
        rw [hq]
        rcases hx with hx | hx
        · exact List.mem_append_left _ hx
        · exact List.mem_append_right _ (List.mem_cons_of_mem _ hx)
      · simpa [Function.update_noteq hb] using hx
    have hsubs : ∀ b, ∀ k ∈ (Function.update s.heap a ⟨pre ++ post⟩ b).states,
        k ∈ (s.heap b).states := by
      intro b k hk
      obtain ⟨x, hx, u, hu, hku⟩ := (mem_states _ _).1 hk
      exact (mem_states _ _).2 ⟨x, hsubq b x hx, u, hu, hku⟩
    refine ⟨t, rfl, hnone, hlt, hw, hrun, hgone, hsubq, ?_⟩
    rw [hrun]
    refine ⟨?_, ?_, ?_, ?_, ?_⟩
    · intro b x hx
      exact hs.nonempty b x (hsubq b x hx)
    · intro b k hk
      obtain ⟨h1, h2⟩ := hs.pending b k (hsubs b k hk)
      refine ⟨h1, ?_⟩
      have hne : k ≠ t.state := by
        rintro rfl
        exact hgone b hk
      simp [Function.update_noteq hne, h2]
    · intro b
      by_cases hb : b = a
      · subst hb
        simp only
        rw [hafter]
        exact hnd.2
      · simp only [Function.update_noteq hb]
        exact hs.nodup b
    · intro b c hbc k hkb hkc
      exact hs.disjoint b c hbc (hsubs b k hkb) (hsubs c k hkc)
    · intro k hk
      have hne : k ≠ t.state := by
        simp only at hk
        omega
      simp only [Function.update_noteq hne]
      exact hs.fresh k hk

/-- The queue contents after `submit`: the new task, or what was there before. -/
theorem mem_queue_submit (pool : mvThreadPool) (tl : ThreadLocal) (s : State ρ ε)
    (f : Unit → Outcome ρ ε) (b : Addr) (x : mvFunctionWrapper (packaged_task ρ ε))
    (hx : x ∈ ((pool.submit tl s f).1.heap b).m_queue) :
    (x = .ofCallable ⟨f, s.next⟩ ∧ b = tl.m_local_work_queue.getD pool.m_pool_work_queue) ∨
    x ∈ (s.heap b).m_queue := by
  rw [(mvThreadPool.submit_heap pool tl s f).1] at hx
  by_cases hb : b = tl.m_local_work_queue.getD pool.m_pool_work_queue
  · subst hb
    simp only [Function.update_same, mvWorkStealingQueue.push, List.mem_cons] at hx
    rcases hx with hx | hx
    · exact Or.inl ⟨hx, rfl⟩
    · exact Or.inr hx
  · right
    simpa [Function.update_noteq hb] using hx

/-- The shared states referred to after `submit`: the new one, or those from before. -/
theorem mem_states_submit (pool : mvThreadPool) (tl : ThreadLocal) (s : State ρ ε)
    (f : Unit → Outcome ρ ε) (b : Addr) (k : Nat)
    (hk : k ∈ ((pool.submit tl s f).1.heap b).states) :
    (k = s.next ∧ b = tl.m_local_work_queue.getD pool.m_pool_work_queue) ∨
    k ∈ (s.heap b).states := by
  obtain ⟨x, hx, t, ht, hkt⟩ := (mem_states _ _).1 hk
  rcases mem_queue_submit pool tl s f b x hx with ⟨rfl, hb⟩ | hold
  · left
    simp only [mvFunctionWrapper.ofCallable, Option.some.injEq] at ht
    subst ht
    exact ⟨hkt.symm, hb⟩
  · exact Or.inr ((mem_states _ _).2 ⟨x, hold, t, ht, hkt⟩)

/-- `submit` keeps the state sound. -/
theorem Sound.submit_sound (pool : mvThreadPool) (tl : ThreadLocal) (s : State ρ ε)
    (f : Unit → Outcome ρ ε) (hs : Sound s) : Sound (pool.submit tl s f).1 := by
  have hheap := (mvThreadPool.submit_heap pool tl s f).1
  have hshared := (mvThreadPool.submit_heap pool tl s f).2.1
  have hnext := (mvThreadPool.submit_heap pool tl s f).2.2.1
  refine ⟨?_, ?_, ?_, ?_, ?_⟩
  · intro b x hx
    rcases mem_queue_submit pool tl s f b x hx with ⟨rfl, -⟩ | hold
    · simp [mvFunctionWrapper.ofCallable]
    · exact hs.nonempty b x hold
  · intro b k hk
    rw [hshared, hnext]
    rcases mem_states_submit pool tl s f b k hk with ⟨rfl, -⟩ | hold
    · exact ⟨Nat.lt_succ_self _, hs.fresh _ (Nat.le_refl _)⟩
    · exact ⟨Nat.lt_succ_of_lt (hs.pending b k hold).1, (hs.pending b k hold).2⟩
  · intro b
    by_cases hb : b = tl.m_local_work_queue.getD pool.m_pool_work_queue
    · have hst : ((pool.submit tl s f).1.heap b).states = s.next :: (s.heap b).states := by
        rw [hheap, hb]
        simp [mvWorkStealingQueue.states, mvWorkStealingQueue.push,
          mvFunctionWrapper.ofCallable, List.filterMap_cons]
      rw [hst, List.nodup_cons]
      refine ⟨?_, hs.nodup b⟩
      intro hmem
      exact Nat.lt_irrefl _ (hs.pending b _ hmem).1
    · rw [hheap, Function.update_noteq hb]
      exact hs.nodup b
  · intro b c hbc k hkb hkc
    rcases mem_states_submit pool tl s f b k hkb with ⟨rfl, hb⟩ | hob
    · rcases mem_states_submit pool tl s f c _ hkc with ⟨-, hc⟩ | hoc
      · exact hbc (hb.trans hc.symm)
      · exact Nat.lt_irrefl _ (hs.pending c _ hoc).1
    · rcases mem_states_submit pool tl s f c k hkc with ⟨rfl, -⟩ | hoc
      · exact Nat.lt_irrefl _ (hs.pending b _ hob).1
      · exact hs.disjoint b c hbc hob hoc
  · intro k hk
    rw [hshared]
    rw [hnext] at hk
    exact hs.fresh k (by omega)

/-- Every call keeps the state sound. -/
theorem Sound.step_sound (s : State ρ ε) (hs : Sound s) (c : Call ρ ε) : Sound (s.step c) := by
  cases c with
  | submit pool tl g => exact Sound.submit_sound pool tl s g hs
  | run_pending_task pool tl =>
    simp only [State.step]
    rcases mvThreadPool.run_pending_task_cases pool tl s with
      ⟨-, hsame, -⟩ | ⟨w, a, h2, -, htook, hrun⟩
    · rw [hsame]; exact hs
    · obtain ⟨t, -, -, -, -, -, -, -, hsound⟩ := Sound.run_task_sound s h2 w a hs htook
      rw [hrun]
      exact hsound

/-- Every state reached from the initial state is sound. -/
theorem Sound.exec_sound (cs : List (Call ρ ε)) :
    ∀ s : State ρ ε, Sound s → Sound (s.exec cs) := by
  induction cs with
  | nil => intro s h; exact h
  | cons c cs ih =>
    intro s h
    simp only [State.exec, List.foldl_cons]
    exact ih _ (Sound.step_sound s h c)

/-- Right after `submit(f)` the new shared state is tracked with the callable `f`. -/
theorem Tracked.of_submit (pool : mvThreadPool) (tl : ThreadLocal) (s : State ρ ε)
    (f : Unit → Outcome ρ ε) (hs : Sound s) : Tracked s.next f (pool.submit tl s f).1 := by
  have hshared := (mvThreadPool.submit_heap pool tl s f).2.1
  have hnext := (mvThreadPool.submit_heap pool tl s f).2.2.1
  refine ⟨Sound.submit_sound pool tl s f hs, ?_, ?_, ?_⟩
  · rw [hnext]; exact Nat.lt_succ_self _
  · intro a w hw t ht hk
    rcases mem_queue_submit pool tl s f a w hw with ⟨rfl, -⟩ | hold
    · simp only [mvFunctionWrapper.ofCallable, Option.some.injEq] at ht
      subst ht
      rfl
    · have hmem : t.state ∈ (s.heap a).states := (mem_states _ _).2 ⟨w, hold, t, ht, rfl⟩
      have := (hs.pending a _ hmem).1
      omega
  · left
    rw [hshared]
    exact hs.fresh _ (Nat.le_refl _)

/-- Every call keeps a tracked shared state tracked. -/
theorem Tracked.step_tracked (k : Nat) (f : Unit → Outcome ρ ε) (s : State ρ ε)
    (h : Tracked k f s) (c : Call ρ ε) : Tracked k f (s.step c) := by
  cases c with
  | submit pool tl g =>
    have hshared := (mvThreadPool.submit_heap pool tl s g).2.1
    have hnext := (mvThreadPool.submit_heap pool tl s g).2.2.1
    refine ⟨Sound.submit_sound pool tl s g h.sound, ?_, ?_, ?_⟩
    · simp only [State.step]
      rw [hnext]
      exact Nat.lt_succ_of_lt h.allocated
    · intro a w hw t ht hk
      rcases mem_queue_submit pool tl s g a w hw with ⟨rfl, -⟩ | hold
      · simp only [mvFunctionWrapper.ofCallable, Option.some.injEq] at ht
        subst ht
        simp only at hk
        have := h.allocated
        omega
      · exact h.callable a w hold t ht hk
    · simp only [State.step]
      rw [hshared]
      exact h.outcome
  | run_pending_task pool tl =>
    simp only [State.step]
    rcases mvThreadPool.run_pending_task_cases pool tl s with
      ⟨-, hsame, -⟩ | ⟨w, a, h2, -, htook, hrun⟩
    · rw [hsame]; exact h
    · obtain ⟨t, hm, hnone, hlt, hw, hres, hgone, hsubq, hsound⟩ :=
        Sound.run_task_sound s h2 w a h.sound htook
      rw [hrun]
      refine ⟨hsound, ?_, ?_, ?_⟩
      · rw [hres]; exact h.allocated
      · rw [hres]
        intro b x hx u hu hk
        exact h.callable b x (hsubq b x hx) u hu hk
      · rw [hres]
        simp only
        by_cases hk : k = t.state
        · right
          have hf : t.f = f := h.callable a w hw t hm hk.symm
          rw [hk, Function.update_same, hf]
        · rw [Function.update_noteq hk]
          exact h.outcome

/-- Every sequence of calls keeps a tracked shared state tracked. -/
theorem Tracked.exec_tracked (k : Nat) (f : Unit → Outcome ρ ε) (cs : List (Call ρ ε)) :
    ∀ s : State ρ ε, Tracked k f s → Tracked k f (s.exec cs) := by
  induction cs with
  | nil => intro s h; exact h
  | cons c cs ih =>
    intro s h
    simp only [State.exec, List.foldl_cons]
    exact ih _ (Tracked.step_tracked k f s h c)

/-- A call that runs a task writing to a tracked shared state: the task is the one built
around `f`, the shared state was not ready, and it now holds the outcome of `f`. -/
theorem Tracked.run (k : Nat) (f : Unit → Outcome ρ ε) (s : State ρ ε) (h : Tracked k f s)
    (pool : mvThreadPool) (tl : ThreadLocal) (w : mvFunctionWrapper (packaged_task ρ ε))
    (hran : (pool.run_pending_task tl s).ran = .task w)
    (hk : ∃ t, w.m_impl = some t ∧ t.state = k) :
    w = .ofCallable ⟨f, k⟩ ∧ s.shared k = none ∧
    (pool.run_pending_task tl s).fault = none ∧
    (pool.run_pending_task tl s).state.shared k = some (f ()) := by
  rcases mvThreadPool.run_pending_task_cases pool tl s with
    ⟨hy, -, -⟩ | ⟨w2, a, h2, -, htook, hrun⟩
  · rw [hy] at hran; exact Ran.noConfusion hran
  · obtain ⟨t, hm, hnone, -, hw, hres, -, -, -⟩ := Sound.run_task_sound s h2 w2 a h.sound htook
    rw [hrun, mvThreadPool.run_task_ran] at hran
    cases hran
    obtain ⟨u, hu, huk⟩ := hk
    rw [hm] at hu
    cases hu
    have hf : t.f = f := h.callable a w hw t hm huk
    subst huk
    rw [hrun, hres]
    refine ⟨?_, hnone, rfl, ?_⟩
    · cases w with
      | mk impl =>
        simp only at hm
        subst hm
        cases t with
        | mk g st =>
          simp only at hf
          subst hf
          rfl
    · simp [hf]

/-- A call changes a tracked shared state only by running the task built around `f`. -/
theorem Tracked.changed (k : Nat) (f : Unit → Outcome ρ ε) (s : State ρ ε)
    (h : Tracked k f s) (c : Call ρ ε) (hc : (s.step c).shared k ≠ s.shared k) :
    ∃ pool tl, c = .run_pending_task pool tl ∧
      (pool.run_pending_task tl s).ran = .task (.ofCallable ⟨f, k⟩) := by
  cases c with
  | submit pool tl g =>
    exfalso
    apply hc
    simp only [State.step]
    rw [(mvThreadPool.submit_heap pool tl s g).2.1]
  | run_pending_task pool tl =>
    refine ⟨pool, tl, rfl, ?_⟩
    simp only [State.step] at hc
    rcases mvThreadPool.run_pending_task_cases pool tl s with
      ⟨-, hsame, -⟩ | ⟨w, a, h2, -, htook, hrun⟩
    · rw [hsame] at hc; exact absurd rfl hc
    · obtain ⟨t, hm, -, -, -, hres, -, -, -⟩ := Sound.run_task_sound s h2 w a h.sound htook
      have hran : (pool.run_pending_task tl s).ran = .task w := by
        rw [hrun, mvThreadPool.run_task_ran]
      have hkt : t.state = k := by
        by_contra hne
        apply hc
        rw [hrun, hres]
        simp [Function.update_noteq (Ne.symm hne)]
      rw [hran, (Tracked.run k f s h pool tl w hran ⟨t, hm, hkt⟩).1]

/-- Once a tracked shared state holds an outcome, it is the outcome of `f` and no call
changes it. -/
theorem Tracked.stable (k : Nat) (f : Unit → Outcome ρ ε) (s : State ρ ε)
    (h : Tracked k f s) (o : Outcome ρ ε) (ho : s.shared k = some o) :
    o = f () ∧ ∀ c, (s.step c).shared k = some o := by
  constructor
  · rcases h.outcome with h1 | h1
    · rw [h1] at ho; exact Option.noConfusion ho
    · rw [h1] at ho
      exact (Option.some.inj ho).symm
  · intro c
    by_contra hne
    have hchg : (s.step c).shared k ≠ s.shared k := by rw [ho]; exact hne
    obtain ⟨pool, tl, -, hran⟩ := Tracked.changed k f s h c hchg
    have := (Tracked.run k f s h pool tl _ hran ⟨⟨f, k⟩, rfl, rfl⟩).2.1
    rw [this] at ho
    exact Option.noConfusion ho

end State

namespace mvThreadPool

variable {ρ ε : Type}

/-- C1: from the initial state any sequence `before` of calls is made (submissions and
worker-loop iterations, by any threads on any pools); then `submit(f)` is called, by any
thread on any pool; then any sequence `after` of calls follows. The returned future is
not ready at submission. Whenever a call of `run_pending_task` then runs a task whose
packaged task is paired with the returned future, that task is the one `submit` built
around `f`, the future was not ready until then, `task()` raises no fault, and
afterwards the future holds exactly the outcome of `f()`: its value if `f` returns, its
failure if `f` raises. Once the future holds an outcome it is that outcome and no later
call changes it; and the only call that changes what the future holds is a
`run_pending_task` that runs the task built around `f`. So the outcome is set exactly
once. -/
theorem submit_future_outcome (self : mvThreadPool) (tl : ThreadLocal)
    (f : Unit → Outcome ρ ε) (before after : List (Call ρ ε)) :
    (self.submit tl (State.initial.exec before) f).2.get
        (self.submit tl (State.initial.exec before) f).1.shared = none ∧
    (∀ (pool : mvThreadPool) (tl2 : ThreadLocal) (w : mvFunctionWrapper (packaged_task ρ ε)),
      (pool.run_pending_task tl2
        ((self.submit tl (State.initial.exec before) f).1.exec after)).ran = .task w →
      (∃ t, w.m_impl = some t ∧
        t.get_future = (self.submit tl (State.initial.exec before) f).2) →
      w = .ofCallable ⟨f, (State.initial.exec before).next⟩ ∧
      (self.submit tl (State.initial.exec before) f).2.get
          ((self.submit tl (State.initial.exec before) f).1.exec after).shared = none ∧
      (pool.run_pending_task tl2
        ((self.submit tl (State.initial.exec before) f).1.exec after)).fault = none ∧
      (self.submit tl (State.initial.exec before) f).2.get
          (pool.run_pending_task tl2
            ((self.submit tl (State.initial.exec before) f).1.exec after)).state.shared
        = some (f ())) ∧
    (∀ o,
      (self.submit tl (State.initial.exec before) f).2.get
          ((self.submit tl (State.initial.exec before) f).1.exec after).shared = some o →
      o = f () ∧
      ∀ c, (self.submit tl (State.initial.exec before) f).2.get
          (((self.submit tl (State.initial.exec before) f).1.exec after).step c).shared
        = some o) ∧
    (∀ c,
      (self.submit tl (State.initial.exec before) f).2.get
          (((self.submit tl (State.initial.exec before) f).1.exec after).step c).shared
        ≠ (self.submit tl (State.initial.exec before) f).2.get
          ((self.submit tl (State.initial.exec before) f).1.exec after).shared →
      ∃ pool tl2, c = .run_pending_task pool tl2 ∧
        (pool.run_pending_task tl2
          ((self.submit tl (State.initial.exec before) f).1.exec after)).ran
          = .task (.ofCallable ⟨f, (State.initial.exec before).next⟩)) := by
  have hs : State.Sound (State.initial.exec before : State ρ ε) :=
    State.Sound.exec_sound before _ State.sound_initial
  generalize (State.initial.exec before : State ρ ε) = s at hs ⊢
  have hfut : (self.submit tl s f).2 = ⟨s.next⟩ := (submit_heap self tl s f).2.2.2
  have h0 : State.Tracked s.next f (self.submit tl s f).1 :=
    State.Tracked.of_submit self tl s f hs
  have h1 : State.Tracked s.next f ((self.submit tl s f).1.exec after) :=
    State.Tracked.exec_tracked s.next f after _ h0
  rw [hfut]
  simp only [future.get]
  refine ⟨?_, ?_, ?_, ?_⟩
  · rw [(submit_heap self tl s f).2.1]
    exact hs.fresh _ (Nat.le_refl _)
  · intro pool tl2 w hran hw
    obtain ⟨t, ht, hg⟩ := hw
    have hk : t.state = s.next := by
      simp only [packaged_task.get_future, future.mk.injEq] at hg
      exact hg
    exact State.Tracked.run s.next f _ h1 pool tl2 w hran ⟨t, ht, hk⟩
  · intro o ho
    exact State.Tracked.stable s.next f _ h1 o ho
  · intro c hc
    exact State.Tracked.changed s.next f _ h1 c hc

/-- C1 at a concrete input: the main thread submits `get_age` to a fresh pool and worker
0 runs one iteration; the future then holds the value 50. -/
theorem submit_future_outcome_witness :
    (Example.pool.submit ThreadLocal.fresh (State.initial.exec []) Example.get_age).2.get
        (Example.pool.run_pending_task ⟨some 1, 0⟩
          ((Example.pool.submit ThreadLocal.fresh (State.initial.exec [])
            Example.get_age).1.exec [])).state.shared
      = some (.ok 50) :=
  ((submit_future_outcome Example.pool ThreadLocal.fresh Example.get_age [] []).2.1
    Example.pool ⟨some 1, 0⟩ (.ofCallable ⟨Example.get_age, 0⟩) rfl ⟨_, rfl, rfl⟩).2.2.2

/-- C3 at a concrete input: worker 0 of the example pool finds its own queue empty and
the overflow queue non-empty; it executes the overflow queue's front task, built around
`get_age`, and the shared state of that task then holds the value 50. -/
theorem run_pending_task_priority_witness :
    Example.pool.m_queues.length ≤ 2 ^ 31 ∧
    Example.pool.worker_thread 0 = some ⟨some 1, 0⟩ ∧
    (Example.pool.run_pending_task ⟨some 1, 0⟩ Example.busy).ran
      = .task (.ofCallable ⟨Example.get_age, 0⟩) ∧
    (Example.pool.run_pending_task ⟨some 1, 0⟩ Example.busy).state.shared 0
      = some (.ok 50) ∧
    (Example.pool.run_pending_task ⟨some 1, 0⟩ Example.busy).fault = none := by
  have hN : Example.pool.m_queues.length ≤ 2 ^ 31 := by
    simp [Example.pool]
  refine ⟨hN, rfl, ?_⟩
  obtain ⟨own, hown, -, -, h2, -⟩ :=
    run_pending_task_priority Example.pool 0 ⟨some 1, 0⟩ Example.busy hN rfl
  have h1 : own = 1 := by
    simp [Example.pool] at hown
    exact hown.symm
  subst h1
  have hex := (h2 (.ofCallable ⟨Example.get_age, 0⟩) [] rfl rfl).1
  have hst := Executed.stores _ _ _ hex ⟨Example.get_age, 0⟩ rfl rfl
  refine ⟨hex.1, ?_, hst.2⟩
  rw [hst.1]
  rfl

/-- C4, the claim fails: worker 1 of three has both peer queues (at addresses 1 and 3)
empty and its own queue (at address 2) non-empty. A step that probed the peer queues
only would return false and change nothing; the stealing step returns true, having
taken the back task 8 from the worker's own queue. -/
theorem steal_takes_from_own_queue :
    Example.pool.worker_thread 1 = some ⟨some 2, 1⟩ ∧
    (Example.heap 1).empty = true ∧ (Example.heap 3).empty = true ∧
    (Example.pool.pop_task_from_other_thread_queue ⟨some 2, 1⟩ Example.heap
        mvFunctionWrapper.empty).ret = true ∧
    (Example.pool.pop_task_from_other_thread_queue ⟨some 2, 1⟩ Example.heap
        mvFunctionWrapper.empty).task = .ofCallable 8 ∧
    ((Example.pool.pop_task_from_other_thread_queue ⟨some 2, 1⟩ Example.heap
        mvFunctionWrapper.empty).heap 2).m_queue = [.ofCallable 7] ∧
    (Example.heap 2).m_queue = [.ofCallable 7, .ofCallable 8] := by
  decide

/-- C4 at a concrete input: worker 0 of three probes the queues at indices 1, 2, 0 (at
addresses 2, 3, 1); the first of them, a peer queue, is non-empty, and its back task 8
is stolen. -/
theorem steal_round_robin_witness :
    (⟨some 1, 0⟩ : ThreadLocal).m_index < Example.pool.m_queues.length ∧
    Example.pool.m_queues.length ≤ 2 ^ 31 ∧
    probe_order 0 3 = [1, 2, 0] ∧
    Example.pool.probed_queues 0 = [2, 3, 1] ∧
    Example.pool.pop_task_from_other_thread_queue ⟨some 1, 0⟩ Example.heap
        mvFunctionWrapper.empty
      = steal_first_nonempty [2, 3, 1] Example.heap mvFunctionWrapper.empty ∧
    (Example.pool.pop_task_from_other_thread_queue ⟨some 1, 0⟩ Example.heap
        mvFunctionWrapper.empty).task = .ofCallable 8 := by
  have hs : (⟨some 1, 0⟩ : ThreadLocal).m_index < Example.pool.m_queues.length := by decide
  have hN : Example.pool.m_queues.length ≤ 2 ^ 31 := by simp [Example.pool]
  have h := (steal_round_robin Example.pool ⟨some 1, 0⟩ Example.heap
    mvFunctionWrapper.empty hs hN).1
  have hp : Example.pool.probed_queues 0 = [2, 3, 1] := by decide
  refine ⟨hs, hN, by decide, hp, ?_, by decide⟩
  rw [h]
  exact congrArg (fun l => steal_first_nonempty l Example.heap mvFunctionWrapper.empty) hp

/-- C9, the claim fails: worker 0 submits `get_age` and then, before its next loop
iteration, `failing`; no other worker steals from its queue. Its next
`run_pending_task` runs the task built around `failing`, not the one built around
`get_age`, which stays in the worker's queue. -/
theorem earlier_submit_not_run_next :
    Example.pool.worker_thread 0 = some ⟨some 1, 0⟩ ∧
    (Example.pool.run_pending_task ⟨some 1, 0⟩
        (Example.pool.submit ⟨some 1, 0⟩
          (Example.pool.submit ⟨some 1, 0⟩ State.initial Example.get_age).1
          Example.failing).1).ran
      = .task (.ofCallable ⟨Example.failing, 1⟩) ∧
    (Example.pool.run_pending_task ⟨some 1, 0⟩
        (Example.pool.submit ⟨some 1, 0⟩
          (Example.pool.submit ⟨some 1, 0⟩ State.initial Example.get_age).1
          Example.failing).1).ran
      ≠ .task (.ofCallable ⟨Example.get_age, 0⟩) ∧
    ((Example.pool.run_pending_task ⟨some 1, 0⟩
        (Example.pool.submit ⟨some 1, 0⟩
          (Example.pool.submit ⟨some 1, 0⟩ State.initial Example.get_age).1
          Example.failing).1).state.heap 1).m_queue
      = [.ofCallable ⟨Example.get_age, 0⟩] := by
  have hran : (Example.pool.run_pending_task ⟨some 1, 0⟩
        (Example.pool.submit ⟨some 1, 0⟩
          (Example.pool.submit ⟨some 1, 0⟩ State.initial Example.get_age).1
          Example.failing).1).ran
      = .task (.ofCallable ⟨Example.failing, 1⟩) := rfl
  refine ⟨rfl, hran, ?_, rfl⟩
  rw [hran]
  simp [mvFunctionWrapper.ofCallable]

/-- C9, amended: in any pool state `s`, worker `i` of a pool calls `submit(f)` from a
running task; `s2` is any later state in which the worker's own queue is as that
`submit` left it (no other worker has stolen from it and the worker's thread has
submitted nothing further), whatever the overflow queue and the other queues hold. Then
the worker's next `run_pending_task` executes exactly the task that `submit` built
around `f` (it invokes `task()` on it, with the effect of that call on the shared states
and its fault), the worker's own queue is again as it was before the `submit`, and no
other queue is changed by this iteration. When moreover `s` is reached from the initial
state by a sequence of calls and `s2` from the state after the `submit` by a sequence of
calls, `task()` raises no fault and the future returned by the `submit` then holds the
outcome of `f()`. -/
theorem locality (self : mvThreadPool) (i : Nat) (tl : ThreadLocal) (s s2 : State ρ ε)
    (f : Unit → Outcome ρ ε) (htl : self.worker_thread i = some tl)
    (hq : ∀ own, self.m_queues[i]? = some own →
      s2.heap own = (self.submit tl s f).1.heap own) :
    Executed s2 (.ofCallable ⟨f, s.next⟩) (self.run_pending_task tl s2) ∧
    (∃ own, self.m_queues[i]? = some own ∧
      (self.run_pending_task tl s2).state.heap own = s.heap own ∧
      ∀ b, b ≠ own → (self.run_pending_task tl s2).state.heap b = s2.heap b) ∧
    (∀ before after : List (Call ρ ε),
      s = State.initial.exec before → s2 = (self.submit tl s f).1.exec after →
      (self.run_pending_task tl s2).fault = none ∧
      (self.submit tl s f).2.get (self.run_pending_task tl s2).state.shared
        = some (f ())) := by
  obtain ⟨own, hown, rfl, -⟩ := worker_thread_eq self i tl htl
  have h2 := hq own hown
  rw [(submit_heap self ⟨some own, i⟩ s f).1] at h2
  have hcons : (s2.heap own).m_queue
      = .ofCallable ⟨f, s.next⟩ :: (s.heap own).m_queue := by
    rw [h2]
    simp [mvWorkStealingQueue.push]
  have hrun := run_pending_task_own self own i s2 _ _ hcons
  have hex : Executed s2 (.ofCallable ⟨f, s.next⟩)
      (self.run_pending_task ⟨some own, i⟩ s2) := by
    rw [hrun]
    exact run_task_executed _ _ _
  refine ⟨hex, ⟨own, hown, ?_, ?_⟩, ?_⟩
  · rw [hrun, run_task_heap]
    simp
  · intro b hb
    rw [hrun, run_task_heap]
    simp [Function.update_noteq hb]
  · intro before after hs hs2
    have hsound : State.Sound s := by
      rw [hs]
      exact State.Sound.exec_sound before _ State.sound_initial
    have htr : State.Tracked s.next f s2 := by
      rw [hs2]
      exact State.Tracked.exec_tracked s.next f after _
        (State.Tracked.of_submit self ⟨some own, i⟩ s f hsound)
    have hT := State.Tracked.run s.next f s2 htr self ⟨some own, i⟩ _ hex.1
      ⟨⟨f, s.next⟩, rfl, rfl⟩
    refine ⟨hT.2.2.1, ?_⟩
    rw [(submit_heap self ⟨some own, i⟩ s f).2.2.2]
    exact hT.2.2.2

/-- C9 at a concrete input: worker 0 submits `failing`, then the main thread submits
`get_age`, which lands on the overflow queue; the worker's next iteration executes the
task it submitted, and the future it got holds the failure. -/
theorem locality_witness :
    Example.pool.worker_thread 0 = some ⟨some 1, 0⟩ ∧
    (Example.pool.run_pending_task ⟨some 1, 0⟩
        ((Example.pool.submit ⟨some 1, 0⟩ State.initial Example.failing).1.exec
          [.submit Example.pool ThreadLocal.fresh Example.get_age])).ran
      = .task (.ofCallable ⟨Example.failing, 0⟩) ∧
    (Example.pool.submit ⟨some 1, 0⟩ State.initial Example.failing).2.get
        (Example.pool.run_pending_task ⟨some 1, 0⟩
          ((Example.pool.submit ⟨some 1, 0⟩ State.initial Example.failing).1.exec
            [.submit Example.pool ThreadLocal.fresh Example.get_age])).state.shared
      = some (.error "failure") := by
  have hq : ∀ own, Example.pool.m_queues[0]? = some own →
      ((Example.pool.submit ⟨some 1, 0⟩ (State.initial : State Nat String)
          Example.failing).1.exec
        [.submit Example.pool ThreadLocal.fresh Example.get_age]).heap own
      = (Example.pool.submit ⟨some 1, 0⟩ (State.initial : State Nat String)
          Example.failing).1.heap own := by
    intro own hown
    have h1 : own = 1 := by
      simp [Example.pool] at hown
      exact hown.symm
    subst h1
    rfl
  have h := locality Example.pool 0 ⟨some 1, 0⟩ State.initial
    ((Example.pool.submit ⟨some 1, 0⟩ State.initial Example.failing).1.exec
      [.submit Example.pool ThreadLocal.fresh Example.get_age])
    Example.failing rfl hq
  exact ⟨rfl, h.1.1, (h.2.2 [] [.submit Example.pool ThreadLocal.fresh Example.get_age]
    rfl rfl).2⟩

/-- C10 at a concrete input: in the example state every queued task is non-empty, and
the iteration of worker 0 raises no null-dereference fault. -/
theorem never_invokes_empty_task_witness :
    Example.pool.worker_thread 0 = some ⟨some 1, 0⟩ ∧
    NonEmptyTasks Example.pool Example.busy.heap ∧
    (Example.pool.run_pending_task ⟨some 1, 0⟩ Example.busy).fault ≠ some .null_call := by
  have hinv : NonEmptyTasks Example.pool Example.busy.heap := by
    constructor
    · intro t ht
      simp [Example.busy, Example.pool] at ht
      subst ht
      simp [mvFunctionWrapper.ofCallable]
    · intro a ha t ht
      simp [Example.pool] at ha
      rcases ha with rfl | rfl | rfl
      · simp [Example.busy] at ht
      · simp [Example.busy] at ht
      · simp [Example.busy] at ht
        subst ht
        simp [mvFunctionWrapper.ofCallable]
  exact ⟨rfl, hinv,
    (never_invokes_empty_task Example.pool 0 ⟨some 1, 0⟩ Example.busy rfl hinv).1⟩

end mvThreadPool

end Marvel
